import Mathlib

/-!
# pass-tui view engine: a shallow embedding

This file embeds the view engine of the `pass-tui` repository (files
`src/store.rs`, `src/app.rs`, `src/backend/mod.rs`) into Lean 4 and proves
properties of the embedded definitions.

Modelling conventions:
* A filesystem path relative to the store root is a `List String` of path
  segments (Rust `PathBuf`, component-wise).
* Rust `String`/`&str` values are Lean `String`s; reasoning happens on
  `String.data` (the underlying `List Char`).
* `HashSet` values are `Finset`s (sets with decidable membership, no order).
* The incrementally built `HashMap<PathBuf, EntryIndex>` of `apply_filter` is
  an association list with most-recent insertion first, so `List.lookup`
  returns the latest binding, matching `HashMap::insert` overwrite semantics.
* Rust's stable `sort_by` is modelled with `List.insertionSort` (a stable
  sort; any stable sort computes the same list).
* The recursive row builder `build_rows` takes an explicit recursion-depth
  fuel; `apply_filter` passes `entries.length + 1`, which bounds the actual
  recursion depth of the Rust code (each recursion level passes through a
  distinct directory entry of the index).
* The `walkdir` traversal of `build_store_index` is abstracted by the list of
  items it yields (relative path plus file type), in traversal order.
-/

namespace PassTui

/-- A path relative to the store root: the ordered sequence of its segments. -/
abbrev Path := List String

/-- `path_to_store_key` from `store.rs`: fold over the components, pushing a
`'/'` separator before every component except when the accumulated key is
still empty. -/
def path_to_store_key (p : Path) : String :=
  p.foldl (fun key seg => (if key = "" then key else key ++ "/") ++ seg) ""

/-- Modelled from the spec: the decode direction of the key codec is not a
function of the source (paths are decoded implicitly via path operations);
the spec describes it as splitting the slash-joined string back into
segments. This is the standard split on the `'/'` character, on the
character list of the key. -/
def splitSlash : List Char → List (List Char)
  | [] => [[]]
  | c :: cs =>
    let r := splitSlash cs
    if c = '/' then [] :: r
    else (c :: r.headD []) :: r.tail

/-- Modelled from the spec: decoding a store key splits it at `'/'`. -/
def decodeKey (s : String) : List String :=
  (splitSlash s.data).map fun cs => String.mk cs

/-- A well-formed path segment: non-empty and without an embedded separator.
Every path component produced by a real filesystem walk satisfies this. -/
def wfSeg (s : String) : Prop := s ≠ "" ∧ '/' ∉ s.data

/-- All segments of the path are well-formed. -/
def wfPath (p : Path) : Prop := ∀ s ∈ p, wfSeg s

instance : DecidablePred wfSeg := fun s =>
  inferInstanceAs (Decidable (s ≠ "" ∧ '/' ∉ s.data))

instance : DecidablePred wfPath := fun p =>
  inferInstanceAs (Decidable (∀ s ∈ p, wfSeg s))

/-- `EntryKind` from `store.rs`. -/
inductive EntryKind
  | dir
  | entry
  deriving DecidableEq, Repr

/-- `StoreEntry` from `store.rs`: a path relative to the store root plus its
kind. -/
structure StoreEntry where
  path : Path
  kind : EntryKind
  deriving DecidableEq, Repr

/-- `StoreEntry::display_name`: the last path segment, or `""` for the root. -/
def StoreEntry.display_name (e : StoreEntry) : String :=
  (e.path.getLast?).getD ""

/-- `StoreEntry::store_key`. -/
def StoreEntry.store_key (e : StoreEntry) : String :=
  path_to_store_key e.path

/-- `StoreEntry::is_dir`. -/
def StoreEntry.is_dir (e : StoreEntry) : Bool :=
  e.kind = EntryKind.dir

/-- `StoreEntry::relative_entry_path`: `None` for directories, the store key
for leaf entries. -/
def StoreEntry.relative_entry_path (e : StoreEntry) : Option String :=
  match e.kind with
  | EntryKind.dir => none
  | EntryKind.entry => some e.store_key

/-- Comparison of two characters by code point (Rust compares `OsStr`
components byte-wise; on UTF-8 data byte order and code-point order agree). -/
def charCmp (a b : Char) : Ordering :=
  if a < b then Ordering.lt else if b < a then Ordering.gt else Ordering.eq

/-- Lexicographic comparison of two character sequences. -/
def charListCmp : List Char → List Char → Ordering
  | [], [] => Ordering.eq
  | [], _ :: _ => Ordering.lt
  | _ :: _, [] => Ordering.gt
  | a :: as', b :: bs' =>
    match charCmp a b with
    | Ordering.eq => charListCmp as' bs'
    | o => o

/-- Comparison of two path segments. -/
def segCmp (a b : String) : Ordering :=
  charListCmp a.data b.data

/-- Component-wise lexicographic comparison of two relative paths, the order
`std::path::Path::cmp` uses. -/
def pathCmp : Path → Path → Ordering
  | [], [] => Ordering.eq
  | [], _ :: _ => Ordering.lt
  | _ :: _, [] => Ordering.gt
  | a :: as', b :: bs' =>
    match segCmp a b with
    | Ordering.eq => pathCmp as' bs'
    | o => o

/-- The canonical entry comparator shared by the sort in `build_store_index`
and `App::cmp_entries`: directories before leaves, then path order. -/
def cmpStoreEntries (a b : StoreEntry) : Ordering :=
  match a.kind, b.kind with
  | EntryKind.dir, EntryKind.entry => Ordering.lt
  | EntryKind.entry, EntryKind.dir => Ordering.gt
  | _, _ => pathCmp a.path b.path

/-- The non-strict order induced by `cmpStoreEntries`, used for sorting. -/
def storeEntryLe (a b : StoreEntry) : Prop :=
  cmpStoreEntries a b ≠ Ordering.gt

instance : DecidableRel storeEntryLe := fun a b =>
  inferInstanceAs (Decidable (cmpStoreEntries a b ≠ Ordering.gt))

/-- The file type `walkdir` reports for a yielded item. -/
inductive FType
  | dir
  | file
  | other
  deriving DecidableEq, Repr

/-- One item yielded by the `WalkDir` traversal of the store root, described
by its path relative to the root and its file type. The root itself is the
item with the empty relative path. -/
structure FSItem where
  path : Path
  ftype : FType
  deriving DecidableEq, Repr

/-- Split a file name at its last `'.'` the way Rust's `Path::extension` and
`Path::file_stem` do: an extension exists when the last `'.'` is not the
first character; the result is `(stem, extension)`. -/
def rustExtSplit (s : String) : Option (List Char × List Char) :=
  match (s.data.reverse).findIdx? (fun c => c = '.') with
  | none => none
  | some k =>
    let n := s.data.length
    if n - 1 - k = 0 then none
    else some (s.data.take (n - 1 - k), s.data.drop (n - k))

/-- Rust `path.extension().and_then(|e| e.to_str()) == Some("gpg")`, applied
to the file name (last segment) of a relative path. -/
def hasGpgExtension (p : Path) : Prop :=
  (rustExtSplit ((p.getLast?).getD "")).map (fun pr => pr.2) = some "gpg".data

instance : DecidablePred hasGpgExtension := fun _ =>
  inferInstanceAs (Decidable (_ = _))

/-- Rust `rel_no_ext.set_extension("")`: replace the file name by its stem
(drop the final extension, if any). -/
def stripLastExtension (p : Path) : Path :=
  match p.getLast? with
  | none => p
  | some s =>
    match rustExtSplit s with
    | none => p
    | some pr => p.dropLast ++ [String.mk pr.1]

/-- The body of the `WalkDir` loop in `build_store_index`: skip the root item
and any item whose file name is `".git"`; emit a `Dir` entry for a directory,
a suffix-stripped `Entry` for a file with the `.gpg` extension, and nothing
otherwise. -/
def walkItemEntry (it : FSItem) : Option StoreEntry :=
  if it.path = [] ∨ it.path.getLast? = some ".git" then none
  else if it.ftype = FType.dir then some ⟨it.path, EntryKind.dir⟩
  else if it.ftype = FType.file ∧ hasGpgExtension it.path then
    some ⟨stripLastExtension it.path, EntryKind.entry⟩
  else none

/-- `build_store_index` from `store.rs`, over the abstract walk: the synthetic
root entry, then one entry per processed item, sorted by
(directories first, then path). -/
def build_store_index (walk : List FSItem) : List StoreEntry :=
  List.insertionSort storeEntryLe
    ((⟨[], EntryKind.dir⟩ : StoreEntry) :: walk.filterMap walkItemEntry)

/-- `PreviewMode` from `app.rs`. -/
inductive PreviewMode
  | raw
  | qr
  deriving DecidableEq, Repr

/-- A failure of the external `pass` collaborator, as seen through
`anyhow::Error`: either a `PassStatusError` (carrying the process context and
the `ExitStatus::code()`, which is `none` when the process died by signal) or
any other error, carried as its display message. A `downcast_ref` to
`PassStatusError` succeeds exactly on the first variant. -/
inductive BackendError
  | statusErr (context : String) (code : Option Int)
  | otherErr (msg : String)
  deriving DecidableEq, Repr

/-- The `Display` rendering of a backend failure (`err.to_string()`):
`PassStatusError` prints `"{context} failed: {status}"`. -/
def BackendError.toMessage : BackendError → String
  | BackendError.statusErr context code =>
    context ++ " failed: " ++
      (match code with
       | some c => "exit status: " ++ toString c
       | none => "signal")
  | BackendError.otherErr msg => msg

/-- The retrieval side of the `Backend` trait: `show` and `show_qr`, each
returning the captured output or a failure. (Named `show'`/`show_qr` because
`show` is reserved in Lean.) -/
structure Backend where
  show' : String → Except BackendError String
  show_qr : String → Except BackendError String

/-- The filesystem as probed by `App::path_exists`, viewed relative to
`store_dir` (the `store_dir.join(rel)` part is absorbed into the view):
which relative string paths are existing directories and which are existing
files. -/
structure FS where
  isDir : String → Bool
  isFile : String → Bool

/-- `ModalAction` from `app.rs` (`from` is reserved in Lean). -/
inductive ModalAction
  | addHere
  | deleteSelected
  | rename (from' : String)

/-- `Modal` from `app.rs`. -/
inductive Modal
  | input (title : String) (buffer : String) (action : ModalAction)
  | confirm (title : String) (message : String) (action : ModalAction)
      (selected_ok : Bool)

/-- `PendingAction` from `app.rs`. -/
inductive PendingAction
  | edit (entry : String)
  | add (entry : String)
  | delete
  | rename (from' : String) (to' : String)

/-- `ViewRow` from `app.rs`: the entry index plus, per ancestor level
including itself, whether that level's node is the last of its siblings. -/
structure ViewRow where
  idx : Nat
  branches : List Bool
  deriving DecidableEq, Repr

/-- The `App` state from `app.rs`, restricted to the fields the view engine
reads and writes (the rendering-only fields are omitted). The ambient
filesystem probed by `path_exists` appears as the explicit field `fs`. -/
structure App where
  backend : Backend
  fs : FS
  cwd : Path
  entries : List StoreEntry
  rows : List ViewRow
  expanded : Finset String
  cursor : Nat
  modal : Option Modal
  pending_preview : Option (String × PreviewMode)
  filter : String
  status : Option String
  preview_key : Option String
  preview_text : String
  preview_is_error : Bool
  preview_mode : PreviewMode

/-- Indexing `self.entries[idx]` (total, with a default like any
out-of-range read modelled away; all indices produced by the engine are in
range). -/
def entryAt (entries : List StoreEntry) (i : Nat) : StoreEntry :=
  entries.getD i ⟨[], EntryKind.dir⟩

/-- `App::relative_to_cwd`: `path.strip_prefix(&self.cwd).unwrap_or(path)`. -/
def relOf (cwd p : Path) : Path :=
  if cwd <+: p then p.drop cwd.length else p

/-- `App::entry_key`: the store key of the entry's path relative to `cwd`. -/
def entry_key (entries : List StoreEntry) (cwd : Path) (i : Nat) : String :=
  path_to_store_key (relOf cwd (entryAt entries i).path)

/-- `relative.parent().map(path_to_store_key).unwrap_or_default()`. -/
def parentStoreKey (rel : Path) : String :=
  if rel = [] then "" else path_to_store_key rel.dropLast

/-- `App::cmp_entries` (indices into `entries`). -/
def cmp_entries (entries : List StoreEntry) (left right : Nat) : Ordering :=
  cmpStoreEntries (entryAt entries left) (entryAt entries right)

/-- The non-strict order induced by `cmp_entries` on indices. -/
def entryIdxLe (entries : List StoreEntry) (i j : Nat) : Prop :=
  cmp_entries entries i j ≠ Ordering.gt

instance (entries : List StoreEntry) : DecidableRel (entryIdxLe entries) :=
  fun i j => inferInstanceAs (Decidable (cmp_entries entries i j ≠ Ordering.gt))

/-- The `while let Some(parent) = current.parent()` loop of
`App::add_visible_ancestors`, written on the reversed path so that taking
the parent (`dropLast`) is structural recursion: walk the ancestors of the
start path, stop at `cwd`, and add the index the path map holds for each
ancestor path. -/
def addVisibleAncestorsGo (cwd : Path) (ibp : List (Path × Nat)) :
    List String → Finset Nat → Finset Nat
  | [], inc => inc
  | _ :: restRev, inc =>
    let par := restRev.reverse
    if par = cwd then inc
    else
      addVisibleAncestorsGo cwd ibp restRev
        (match List.lookup par ibp with
         | some pidx => insert pidx inc
         | none => inc)

/-- `App::add_visible_ancestors`, for the entry whose path is `p`. -/
def add_visible_ancestors (cwd : Path) (ibp : List (Path × Nat)) (p : Path)
    (inc : Finset Nat) : Finset Nat :=
  addVisibleAncestorsGo cwd ibp p.reverse inc

/-- The first loop of `App::apply_filter`, over the enumerated entries:
build the path-to-index map incrementally (most recent insertion first,
matching `HashMap::insert` overwrite) and collect the set of included entry
indices, adding visible ancestors when filtering is active. -/
def filterScanGo (cwd : Path) (filter : String) (filterActive : Bool) :
    List (Nat × StoreEntry) → List (Path × Nat) → Finset Nat → Finset Nat
  | [], _, inc => inc
  | (idx, e) :: rest, ibp, inc =>
    let ibp' := (e.path, idx) :: ibp
    if ¬ (cwd <+: e.path) ∨ e.path = cwd then
      filterScanGo cwd filter filterActive rest ibp' inc
    else if filterActive ∧ ¬ (filter.data <:+: e.display_name.data) then
      filterScanGo cwd filter filterActive rest ibp' inc
    else
      filterScanGo cwd filter filterActive rest ibp'
        (if filterActive then
          add_visible_ancestors cwd ibp' e.path (insert idx inc)
         else insert idx inc)

/-- The include set computed by the first loop of `App::apply_filter`. -/
def filterScan (entries : List StoreEntry) (cwd : Path) (filter : String) :
    Finset Nat :=
  filterScanGo cwd filter (!filter.isEmpty) entries.enum [] ∅

/-- The grouped-and-sorted sibling lists of `App::apply_filter`: for a parent
key, the included entries (strictly inside `cwd`) whose parent key it is,
sorted by `cmp_entries`. -/
def childrenOf (entries : List StoreEntry) (cwd : Path) (inc : Finset Nat)
    (k : String) : List Nat :=
  List.insertionSort (entryIdxLe entries)
    ((List.range entries.length).filter fun i =>
      decide (i ∈ inc ∧ relOf cwd (entryAt entries i).path ≠ [] ∧
        parentStoreKey (relOf cwd (entryAt entries i).path) = k))

/-- The sibling loop of `App::build_rows`: emit one row per sibling (the
branch stack extended with its is-last flag), recursing below a directory
when filtering is active or the directory's key is expanded. -/
def buildRowsGo (entries : List StoreEntry) (cwd : Path)
    (expanded : Finset String) (filterActive : Bool)
    (recur : String → List Bool → List ViewRow) :
    List Nat → List Bool → List ViewRow
  | [], _ => []
  | i :: rest, stack =>
    let stack' := stack ++ [rest.isEmpty]
    let sub :=
      if (entryAt entries i).kind = EntryKind.dir ∧
          (filterActive ∨ entry_key entries cwd i ∈ expanded) then
        recur (entry_key entries cwd i) stack'
      else []
    ViewRow.mk i stack' ::
      (sub ++ buildRowsGo entries cwd expanded filterActive recur rest stack)

/-- `App::build_rows` with an explicit recursion-depth fuel. -/
def buildRowsFuel (entries : List StoreEntry) (cwd : Path)
    (expanded : Finset String) (filterActive : Bool)
    (children : String → List Nat) :
    Nat → String → List Bool → List ViewRow
  | 0, _, _ => []
  | fuel + 1, parent, stack =>
    buildRowsGo entries cwd expanded filterActive
      (fun k st => buildRowsFuel entries cwd expanded filterActive children
        fuel k st)
      (children parent) stack

/-- The row list `App::apply_filter` rebuilds: scan for included entries,
group and sort them by parent key, then walk the forest from the root key
with an empty branch stack. The fuel `entries.length + 1` bounds the
recursion depth of the Rust code. -/
def recomputeRows (entries : List StoreEntry) (cwd : Path) (filter : String)
    (expanded : Finset String) : List ViewRow :=
  let filterActive := !filter.isEmpty
  let inc := filterScan entries cwd filter
  buildRowsFuel entries cwd expanded filterActive
    (childrenOf entries cwd inc) (entries.length + 1) "" []

/-- `App::apply_filter`: rebuild `rows`, then clamp the cursor
(`rows.len().saturating_sub(1)` is truncated subtraction on `Nat`). -/
def App.apply_filter (a : App) : App :=
  let rows := recomputeRows a.entries a.cwd a.filter a.expanded
  { a with
    rows := rows
    cursor := if rows.length ≤ a.cursor then rows.length - 1 else a.cursor }

/-- `App::enter`: if the row under the cursor is a directory, flip its key's
membership in `expanded` and recompute; otherwise do nothing. -/
def App.enter (a : App) : App :=
  match a.rows.get? a.cursor with
  | none => a
  | some row =>
    match a.entries.get? row.idx with
    | none => a
    | some e =>
      if e.is_dir then
        let key := entry_key a.entries a.cwd row.idx
        App.apply_filter
          { a with
            expanded :=
              if key ∈ a.expanded then a.expanded.erase key
              else insert key a.expanded }
      else a

/-- `App::selected_entry_path`. -/
def App.selected_entry_path (a : App) : Option String :=
  (a.rows.get? a.cursor).bind fun r =>
    (entryAt a.entries r.idx).relative_entry_path

/-- Rust `PathBuf::set_extension("gpg")` applied to the path built from a
relative string: replace the extension of the last `/`-separated segment
(or append `.gpg` if it has none). -/
def setGpgExtension (rel : String) : String :=
  let segs := decodeKey rel
  let last := (segs.getLast?).getD ""
  let stem :=
    match rustExtSplit last with
    | none => last.data
    | some pr => pr.1
  path_to_store_key (segs.dropLast ++ [String.mk (stem ++ ".gpg".data)])

/-- `App::path_exists`: probe the bare directory path and the leaf's on-disk
`.gpg` form. -/
def App.path_exists (a : App) (rel : String) : Bool :=
  a.fs.isDir rel || a.fs.isFile (setGpgExtension rel)

/-- Rust `str::trim`: drop whitespace from both ends (written on the
character list; Lean's built-in `String.trim` is byte-position based and is
avoided so that concrete instances evaluate by kernel reduction). -/
def rustTrim (s : String) : String :=
  String.mk
    (((s.data.dropWhile Char.isWhitespace).reverse.dropWhile
        Char.isWhitespace).reverse)

/-- `App::submit_modal`: take the modal and turn it into a validated
`PendingAction`, or reject (possibly setting a status message). -/
def App.submit_modal (a : App) : App × Option PendingAction :=
  match a.modal with
  | none => (a, none)
  | some m =>
    let a' := { a with modal := none }
    match m with
    | Modal.input _ buffer action =>
      match action with
      | ModalAction.addHere =>
        let name := rustTrim buffer
        if name = "" then (a', none)
        else (a', some (PendingAction.add name))
      | ModalAction.deleteSelected => (a', none)
      | ModalAction.rename from' =>
        let to' := rustTrim buffer
        if to' = "" ∨ to' = from' then (a', none)
        else if a'.path_exists to' then
          ({ a' with
             status := some ("Target '" ++ to' ++ "' exists — rename aborted") },
           none)
        else (a', some (PendingAction.rename from' to'))
    | Modal.confirm _ _ action selected_ok =>
      match action, selected_ok with
      | ModalAction.deleteSelected, true => (a', some PendingAction.delete)
      | _, _ => (a', none)

/-- `App::set_preview_state`. -/
def App.set_preview_state (a : App) (rel : String) (text : String)
    (is_error : Bool) (mode : PreviewMode) : App :=
  { a with
    preview_key := some rel
    preview_text := text
    preview_is_error := is_error
    preview_mode := mode }

/-- Whether a backend failure is the recognized lock failure: a
`PassStatusError` whose exit code is `Some(2)`. -/
def isLockFailure : BackendError → Bool
  | BackendError.statusErr _ (some 2) => true
  | _ => false

/-- The locked-key placeholder text from `App::load_preview`. -/
def lockedMessage : String := "GPG key locked. Prompting for passphrase..."

/-- `App::load_preview`: fetch the entry's content; on success display it; on
a lock failure with `allow_unlock == false`, record a pending retry, show
the locked placeholder and return `Ok`; on any other failure display the
error message and propagate the failure (returned as `some err`). -/
def App.load_preview (a : App) (rel : String) (mode : PreviewMode)
    (allow_unlock : Bool) : App × Option BackendError :=
  let result :=
    match mode with
    | PreviewMode.raw => a.backend.show' rel
    | PreviewMode.qr => a.backend.show_qr rel
  match result with
  | Except.ok text =>
    ({ (a.set_preview_state rel text false mode) with pending_preview := none },
     none)
  | Except.error err =>
    if !allow_unlock ∧ isLockFailure err then
      ({ (a.set_preview_state rel lockedMessage true mode) with
         pending_preview := some (rel, mode) },
       none)
    else
      (a.set_preview_state rel err.toMessage true mode, some err)

/-- Specification helper: the character sequence contributed by the non-head
segments of a key: a `'/'` before each chunk. -/
def slashAll (chunks : List (List Char)) : List Char :=
  (chunks.map (fun c => '/' :: c)).flatten

/-- A backend whose retrieval calls always fail with the recognized lock
failure (`PassStatusError` with exit code 2). -/
def lockBackend : Backend where
  show' := fun _ => Except.error (BackendError.statusErr "pass show" (some 2))
  show_qr := fun _ =>
    Except.error (BackendError.statusErr "pass show -q" (some 2))

/-- A concrete `App` used to instantiate theorems: empty store view, inert
backend and filesystem. -/
def baseApp : App where
  backend :=
    ⟨fun _ => Except.error (BackendError.otherErr "err"),
     fun _ => Except.error (BackendError.otherErr "err")⟩
  fs := ⟨fun _ => false, fun _ => false⟩
  cwd := []
  entries := []
  rows := []
  expanded := {""}
  cursor := 0
  modal := none
  pending_preview := none
  filter := ""
  status := none
  preview_key := none
  preview_text := ""
  preview_is_error := false
  preview_mode := PreviewMode.raw

/-- The walk of a store holding the directory `a`, the file `a.gpg` and the
file `a/b.gpg`: the leaf decoded from `a.gpg` shares its path with the
directory `a`. -/
def mixedWalk : List FSItem :=
  [⟨["a"], FType.dir⟩, ⟨["a.gpg"], FType.file⟩, ⟨["a", "b.gpg"], FType.file⟩]

/-- The index of `mixedWalk`. -/
def mixedStore : List StoreEntry := build_store_index mixedWalk

/-- The walk of a store whose version-control metadata directory has a
subdirectory, as any store initialized with git has. -/
def gitWalk : List FSItem :=
  [⟨[".git"], FType.dir⟩, ⟨[".git", "objects"], FType.dir⟩]

/-- The entry comparator restated as a conjunction: `a` sorts no later than
`b` iff `a` is a directory and `b` a leaf, or they have the same kind and
`a`'s path is not lexicographically greater. -/
def viewRowParentKey (entries : List StoreEntry) (cwd : Path)
    (r : ViewRow) : String :=
  parentStoreKey (relOf cwd (entryAt entries r.idx).path)

/-- The sibling group of parent key `k` in a row list: the rows whose
entry's parent key (relative to `cwd`) is `k`, in row-list order. -/
def siblingRows (entries : List StoreEntry) (cwd : Path) (k : String)
    (rows : List ViewRow) : List ViewRow :=
  rows.filter fun r => decide (viewRowParentKey entries cwd r = k)

/-- The walk of the spec's scenario store: directories `a/`, `a/b/`, `x/`
and leaves `a/b/one`, `x/two`. -/
def sampleWalk : List FSItem :=
  [⟨["a"], FType.dir⟩, ⟨["a", "b"], FType.dir⟩, ⟨["x"], FType.dir⟩,
   ⟨["a", "b", "one.gpg"], FType.file⟩, ⟨["x", "two.gpg"], FType.file⟩]

/-- The index of `sampleWalk`: root, `a`, `a/b`, `x`, then the leaves
`a/b/one` and `x/two`. -/
def sampleStore : List StoreEntry := build_store_index sampleWalk

/-- The flip of one key's membership in the expand set performed by
`App::enter` on a directory row. -/
def flipExpanded (expanded : Finset String) (key : String) : Finset String :=
  if key ∈ expanded then expanded.erase key else insert key expanded

/-- Invariant of the incrementally built path-to-index map: every binding
maps the path of an in-range entry to its index. -/
def mapOK (entries : List StoreEntry) (ibp : List (Path × Nat)) : Prop :=
  ∀ pr ∈ ibp, pr.2 < entries.length ∧ (entryAt entries pr.2).path = pr.1

/-- Characterization of an index included by the filter scan: it is in
range, its path lies strictly inside `cwd`, and either its own display name
matches the filter (vacuously when filtering is off), or its path is a
strict prefix of the path of some strictly-inside-`cwd` entry whose display
name matches. -/
def inclSpec (entries : List StoreEntry) (cwd : Path) (filter : String)
    (filterActive : Bool) (x : Nat) : Prop :=
  x < entries.length ∧ cwd <+: (entryAt entries x).path ∧
    (entryAt entries x).path ≠ cwd ∧
    ((filterActive →
        filter.data <:+: (entryAt entries x).display_name.data) ∨
      ∃ j, j < entries.length ∧ cwd <+: (entryAt entries j).path ∧
        (entryAt entries j).path ≠ cwd ∧
        (filterActive →
          filter.data <:+: (entryAt entries j).display_name.data) ∧
        (entryAt entries x).path <+: (entryAt entries j).path ∧
        (entryAt entries x).path ≠ (entryAt entries j).path)

end PassTui

namespace PassTui

/-! ## Basic facts about the key codec -/

theorem str_ne_iff_data (s : String) : s ≠ "" ↔ s.data ≠ [] := by
  constructor
  · intro h hd
    exact h (String.ext hd)
  · intro h hd
    exact h (by rw [hd])

theorem string_mk_data (s : String) : String.mk s.data = s := rfl

theorem foldl_key_data (l : List String) :
    ∀ acc : String, acc ≠ "" →
      (List.foldl (fun key seg => (if key = "" then key else key ++ "/") ++ seg)
          acc l).data
        = acc.data ++ slashAll (l.map String.data) := by
  induction l with
  | nil =>
    intro acc _
    simp [slashAll]
  | cons s l ih =>
    intro acc hacc
    rw [List.foldl_cons]
    have hne : (if acc = "" then acc else acc ++ "/") ++ s ≠ "" := by
      rw [if_neg hacc, str_ne_iff_data]
      simp [String.data_append]
    rw [ih _ hne, if_neg hacc]
    simp [String.data_append, slashAll]

theorem key_data (s : String) (l : List String) (hs : s ≠ "") :
    (path_to_store_key (s :: l)).data = s.data ++ slashAll (l.map String.data) := by
  have hempty : (("" : String) ++ s) = s := String.ext (by rw [String.data_append]; rfl)
  unfold path_to_store_key
  rw [List.foldl_cons, if_pos rfl, hempty]
  exact foldl_key_data l s hs

theorem key_nil : path_to_store_key [] = "" := rfl

theorem splitSlash_ne_nil : ∀ cs : List Char, splitSlash cs ≠ [] := by
  intro cs
  induction cs with
  | nil => simp [splitSlash]
  | cons c cs ih =>
    by_cases h : c = '/' <;> simp [splitSlash, h]

theorem splitSlash_no_slash : ∀ cs : List Char, '/' ∉ cs → splitSlash cs = [cs] := by
  intro cs
  induction cs with
  | nil => intro _; rfl
  | cons c cs ih =>
    intro h
    have hc : ¬ c = '/' := by
      intro hc
      exact h (by simp [hc])
    have hcs : '/' ∉ cs := fun hx => h (List.mem_cons_of_mem _ hx)
    simp [splitSlash, hc, ih hcs]

theorem splitSlash_append_slash :
    ∀ a X : List Char, '/' ∉ a → splitSlash (a ++ '/' :: X) = a :: splitSlash X := by
  intro a
  induction a with
  | nil =>
    intro X _
    simp [splitSlash]
  | cons c cs ih =>
    intro X h
    have hc : ¬ c = '/' := by
      intro hc
      exact h (by simp [hc])
    have hcs : '/' ∉ cs := fun hx => h (List.mem_cons_of_mem _ hx)
    have hstep : splitSlash ((c :: cs) ++ '/' :: X) =
        (c :: (splitSlash (cs ++ '/' :: X)).headD []) ::
          (splitSlash (cs ++ '/' :: X)).tail := by
      simp only [List.cons_append, splitSlash]
      rw [if_neg hc]
      rfl
    rw [hstep, ih X hcs]
    rfl

theorem splitSlash_slashAll :
    ∀ (chunks : List (List Char)) (c : List Char), '/' ∉ c →
      (∀ x ∈ chunks, '/' ∉ x) →
      splitSlash (c ++ slashAll chunks) = c :: chunks := by
  intro chunks
  induction chunks with
  | nil =>
    intro c hc _
    simp [slashAll, splitSlash_no_slash c hc]
  | cons d rest ih =>
    intro c hc hall
    have hd : '/' ∉ d := hall d (by simp)
    have hrest : ∀ x ∈ rest, '/' ∉ x := fun x hx => hall x (by simp [hx])
    have : slashAll (d :: rest) = '/' :: (d ++ slashAll rest) := by
      simp [slashAll]
    rw [this, splitSlash_append_slash c (d ++ slashAll rest) hc, ih d hd hrest]

theorem key_roundtrip (p : Path) (hwf : wfPath p) (hne : p ≠ []) :
    decodeKey (path_to_store_key p) = p := by
  match p, hne with
  | s :: l, _ =>
    have hs : s ≠ "" := (hwf s (by simp)).1
    have hsd : '/' ∉ s.data := (hwf s (by simp)).2
    have hld : ∀ x ∈ l.map String.data, '/' ∉ x := by
      intro x hx
      rcases List.mem_map.mp hx with ⟨t, ht, rfl⟩
      exact (hwf t (by simp [ht])).2
    unfold decodeKey
    rw [key_data s l hs, splitSlash_slashAll (l.map String.data) s.data hsd hld]
    have hmap : ∀ m : List String,
        List.map ((fun cs => String.mk cs) ∘ String.data) m = m := by
      intro m
      induction m with
      | nil => rfl
      | cons a t iht =>
        rw [List.map_cons, iht]
        rfl
    simp only [List.map_cons, List.map_map, string_mk_data, hmap]

theorem key_ne_empty (p : Path) (hwf : wfPath p) (hne : p ≠ []) :
    path_to_store_key p ≠ "" := by
  match p, hne with
  | s :: l, _ =>
    have hs : s.data ≠ [] := (str_ne_iff_data s).mp (hwf s (by simp)).1
    rw [str_ne_iff_data, key_data s l (hwf s (by simp)).1]
    intro h
    exact hs (List.append_eq_nil.mp h).1

theorem key_inj {p q : Path} (hp : wfPath p) (hq : wfPath q)
    (h : path_to_store_key p = path_to_store_key q) : p = q := by
  match p, q with
  | [], [] => rfl
  | [], t :: m =>
    exact absurd h.symm (key_ne_empty (t :: m) hq (by simp))
  | s :: l, [] =>
    exact absurd h (key_ne_empty (s :: l) hp (by simp))
  | s :: l, t :: m =>
    have h1 := key_roundtrip (s :: l) hp (by simp)
    have h2 := key_roundtrip (t :: m) hq (by simp)
    rw [← h1, ← h2, h]

end PassTui

namespace PassTui

/-! ## Claim C9: key codec round trip -/

/-- C9, counterexample: the claim quantifies over every sequence of
`'/'`-free segments, but decoding the encoded empty sequence yields the
singleton of the empty segment, not the empty sequence; a sequence with an
embedded empty segment also fails to round-trip. -/
theorem C9_counterexample :
    decodeKey (path_to_store_key []) = [""] ∧ ([""] : List String) ≠ [] ∧
      decodeKey (path_to_store_key ["", "a"]) = ["a"] ∧
      (["a"] : List String) ≠ ["", "a"] := by
  decide

/-- C9 (amended): for every non-empty sequence of non-empty `'/'`-free
segments, splitting the slash-joined store key at `'/'` recovers the
original sequence; the empty sequence encodes to the empty string, whose
decoding is the singleton `[""]`. -/
theorem C9_roundtrip (p : Path) (h1 : wfPath p) (h2 : p ≠ []) :
    decodeKey (path_to_store_key p) = p :=
  key_roundtrip p h1 h2

/-- Witness for `C9_roundtrip` at the segment sequence `["a", "b"]`. -/
theorem C9_roundtrip_witness :
    wfPath ["a", "b"] ∧ (["a", "b"] : Path) ≠ [] ∧
      decodeKey (path_to_store_key ["a", "b"]) = ["a", "b"] :=
  ⟨by decide, by decide, C9_roundtrip ["a", "b"] (by decide) (by decide)⟩

/-! ## Claim C4: cursor clamping -/

/-- C4: after `apply_filter`, the cursor is a valid index into the rebuilt
row list, or the row list is empty and the cursor is `0`. -/
theorem C4_cursor_in_range (a : App) :
    (App.apply_filter a).cursor < (App.apply_filter a).rows.length ∨
      ((App.apply_filter a).rows = [] ∧ (App.apply_filter a).cursor = 0) := by
  unfold App.apply_filter
  simp only
  rcases Nat.eq_zero_or_pos
      (recomputeRows a.entries a.cwd a.filter a.expanded).length with h0 | hpos
  · right
    refine ⟨List.length_eq_zero.mp h0, ?_⟩
    rw [if_pos (by omega)]
    omega
  · left
    by_cases h : (recomputeRows a.entries a.cwd a.filter a.expanded).length ≤
        a.cursor
    · rw [if_pos h]
      omega
    · rw [if_neg h]
      omega

/-! ## Claim C2: lock failure handling in the preview workflow -/

/-- C2, counterexample: on a recognized lock failure the code does set the
error flag on the displayed state (`preview_is_error == true`), and the
placeholder it stores uses ASCII dots, not the ellipsis the claim quotes. -/
theorem C2_counterexample :
    ((App.load_preview { baseApp with backend := lockBackend } "secret"
        PreviewMode.raw false).1.preview_is_error = true) ∧
      (App.load_preview { baseApp with backend := lockBackend } "secret"
          PreviewMode.raw false).1.preview_text ≠
        "GPG key locked. Prompting for passphrase…" := by
  decide

/-- C2 (amended): when a content request with `allow_unlock = false` fails
with the recognized lock failure (a `PassStatusError` with exit code 2), the
pending retry for `(key, mode)` is recorded, the preview text becomes
`"GPG key locked. Prompting for passphrase..."`, no error is returned to the
caller — but the displayed state's error flag is set (`is_error = true`). -/
theorem C2_lock_awaits_unlock (a : App) (rel : String) (mode : PreviewMode)
    (context : String)
    (h : (match mode with
          | PreviewMode.raw => a.backend.show' rel
          | PreviewMode.qr => a.backend.show_qr rel) =
        Except.error (BackendError.statusErr context (some 2))) :
    (App.load_preview a rel mode false).2 = none ∧
      (App.load_preview a rel mode false).1.pending_preview =
        some (rel, mode) ∧
      (App.load_preview a rel mode false).1.preview_text = lockedMessage ∧
      (App.load_preview a rel mode false).1.preview_is_error = true ∧
      (App.load_preview a rel mode false).1.preview_key = some rel ∧
      (App.load_preview a rel mode false).1.preview_mode = mode := by
  cases mode with
  | raw =>
    unfold App.load_preview
    rw [show (match PreviewMode.raw with
        | PreviewMode.raw => a.backend.show' rel
        | PreviewMode.qr => a.backend.show_qr rel) = a.backend.show' rel
      from rfl] at h
    rw [h]
    simp [App.set_preview_state, isLockFailure]
  | qr =>
    unfold App.load_preview
    rw [show (match PreviewMode.qr with
        | PreviewMode.raw => a.backend.show' rel
        | PreviewMode.qr => a.backend.show_qr rel) = a.backend.show_qr rel
      from rfl] at h
    rw [h]
    simp [App.set_preview_state, isLockFailure]

/-- Witness for `C2_lock_awaits_unlock` with the always-locked backend. -/
theorem C2_lock_awaits_unlock_witness :
    ((match PreviewMode.raw with
      | PreviewMode.raw =>
        ({ baseApp with backend := lockBackend } : App).backend.show' ("secret")
      | PreviewMode.qr =>
        ({ baseApp with backend := lockBackend } : App).backend.show_qr
          "secret") =
      Except.error (BackendError.statusErr "pass show" (some 2))) ∧
      ((App.load_preview { baseApp with backend := lockBackend } "secret"
          PreviewMode.raw false).2 = none ∧
        (App.load_preview { baseApp with backend := lockBackend } "secret"
            PreviewMode.raw false).1.pending_preview =
          some ("secret", PreviewMode.raw) ∧
        (App.load_preview { baseApp with backend := lockBackend } "secret"
            PreviewMode.raw false).1.preview_text = lockedMessage ∧
        (App.load_preview { baseApp with backend := lockBackend } "secret"
            PreviewMode.raw false).1.preview_is_error = true ∧
        (App.load_preview { baseApp with backend := lockBackend } "secret"
            PreviewMode.raw false).1.preview_key = some "secret" ∧
        (App.load_preview { baseApp with backend := lockBackend } "secret"
            PreviewMode.raw false).1.preview_mode = PreviewMode.raw) :=
  ⟨rfl,
    C2_lock_awaits_unlock { baseApp with backend := lockBackend } "secret"
      PreviewMode.raw "pass show" rfl⟩

end PassTui

namespace PassTui

/-! ## Claim C7: rename validation -/

/-- C7: a rename submission whose trimmed target is empty, equals the
source, or already exists on disk (bare directory path or `.gpg` leaf form)
produces no `PendingAction`; in the already-exists case a status message is
set. -/
theorem C7_rename_validation (a : App) (title buffer from' : String)
    (hm : a.modal = some (Modal.input title buffer (ModalAction.rename from')))
    (h : rustTrim buffer = "" ∨ rustTrim buffer = from' ∨
        App.path_exists a (rustTrim buffer) = true) :
    (App.submit_modal a).2 = none ∧
      ((rustTrim buffer ≠ "" ∧ rustTrim buffer ≠ from' ∧
          App.path_exists a (rustTrim buffer) = true) →
        ((App.submit_modal a).1.status).isSome = true) := by
  unfold App.submit_modal
  rw [hm]
  simp only
  by_cases h1 : rustTrim buffer = "" ∨ rustTrim buffer = from'
  · rw [if_pos h1]
    refine ⟨rfl, ?_⟩
    rintro ⟨hne, hnf, _⟩
    rcases h1 with h1 | h1
    · exact absurd h1 hne
    · exact absurd h1 hnf
  · rw [if_neg h1]
    have hpe : App.path_exists { a with modal := none } (rustTrim buffer) =
        App.path_exists a (rustTrim buffer) := rfl
    have hex : App.path_exists { a with modal := none } (rustTrim buffer) =
        true := by
      rw [hpe]
      rcases h with h | h | h
      · exact absurd (Or.inl h) h1
      · exact absurd (Or.inr h) h1
      · exact h
    rw [if_pos hex]
    exact ⟨rfl, fun _ => rfl⟩

/-- Witness for `C7_rename_validation`: renaming `"a/b/one"` to `"x/two"`
while the file `x/two.gpg` exists. -/
theorem C7_rename_validation_witness :
    (({ baseApp with
        modal := some (Modal.input "Rename entry" "x/two"
          (ModalAction.rename "a/b/one")),
        fs := ⟨fun _ => false, fun s => s = "x/two.gpg"⟩ } : App).modal =
      some (Modal.input "Rename entry" "x/two" (ModalAction.rename "a/b/one"))) ∧
      (rustTrim "x/two" = "" ∨ rustTrim "x/two" = "a/b/one" ∨
        App.path_exists
          { baseApp with
            modal := some (Modal.input "Rename entry" "x/two"
              (ModalAction.rename "a/b/one")),
            fs := ⟨fun _ => false, fun s => s = "x/two.gpg"⟩ }
          (rustTrim "x/two") = true) ∧
      ((App.submit_modal
          { baseApp with
            modal := some (Modal.input "Rename entry" "x/two"
              (ModalAction.rename "a/b/one")),
            fs := ⟨fun _ => false, fun s => s = "x/two.gpg"⟩ }).2 = none ∧
        ((rustTrim "x/two" ≠ "" ∧ rustTrim "x/two" ≠ "a/b/one" ∧
            App.path_exists
              { baseApp with
                modal := some (Modal.input "Rename entry" "x/two"
                  (ModalAction.rename "a/b/one")),
                fs := ⟨fun _ => false, fun s => s = "x/two.gpg"⟩ }
              (rustTrim "x/two") = true) →
          ((App.submit_modal
              { baseApp with
                modal := some (Modal.input "Rename entry" "x/two"
                  (ModalAction.rename "a/b/one")),
                fs := ⟨fun _ => false, fun s => s = "x/two.gpg"⟩ }).1.status).isSome =
            true)) :=
  ⟨rfl, by decide,
    C7_rename_validation _ "Rename entry" "x/two" "a/b/one" rfl (by decide)⟩

/-! ## Claims C5 and C6: the store indexer -/

theorem mem_build_store_index {walk : List FSItem} {e : StoreEntry} :
    e ∈ build_store_index walk ↔
      e = ⟨[], EntryKind.dir⟩ ∨ ∃ it ∈ walk, walkItemEntry it = some e := by
  unfold build_store_index
  rw [(List.perm_insertionSort storeEntryLe _).mem_iff]
  simp [List.mem_filterMap]

/-- C5, counterexample: a file named `x.gpg.gpg` is indexed as the leaf
`x.gpg`, whose name still ends in the on-disk `.gpg` suffix — only one
extension layer is stripped. -/
theorem C5_counterexample :
    (⟨["x.gpg"], EntryKind.entry⟩ : StoreEntry) ∈
        build_store_index [⟨["x.gpg.gpg"], FType.file⟩] ∧
      ".gpg".data <:+ "x.gpg".data := by
  decide

/-- C5 (amended): every leaf entry of the index comes from a walked file
whose name carries the `.gpg` extension, and its path is that file's
relative path with exactly the final extension stripped
(`set_extension("")`); when the remaining stem itself ends in `.gpg`, the
leaf path still carries the suffix. -/
theorem C5_leaf_suffix_stripped_once (walk : List FSItem) (e : StoreEntry)
    (he : e ∈ build_store_index walk) (hk : e.kind = EntryKind.entry) :
    ∃ it ∈ walk, it.ftype = FType.file ∧ hasGpgExtension it.path ∧
      e.path = stripLastExtension it.path := by
  rcases mem_build_store_index.mp he with h | ⟨it, hit, hw⟩
  · rw [h] at hk
    exact absurd hk (by decide)
  · unfold walkItemEntry at hw
    by_cases h1 : it.path = [] ∨ it.path.getLast? = some ".git"
    · rw [if_pos h1] at hw
      cases hw
    · rw [if_neg h1] at hw
      by_cases h2 : it.ftype = FType.dir
      · rw [if_pos h2] at hw
        have : e.kind = EntryKind.dir := by
          cases hw
          rfl
        rw [hk] at this
        cases this
      · rw [if_neg h2] at hw
        by_cases h3 : it.ftype = FType.file ∧ hasGpgExtension it.path
        · rw [if_pos h3] at hw
          refine ⟨it, hit, h3.1, h3.2, ?_⟩
          cases hw
          rfl
        · rw [if_neg h3] at hw
          cases hw

/-- Witness for `C5_leaf_suffix_stripped_once` at the `x.gpg.gpg` store. -/
theorem C5_leaf_suffix_stripped_once_witness :
    ((⟨["x.gpg"], EntryKind.entry⟩ : StoreEntry) ∈
        build_store_index [⟨["x.gpg.gpg"], FType.file⟩] ∧
      (⟨["x.gpg"], EntryKind.entry⟩ : StoreEntry).kind = EntryKind.entry) ∧
      ∃ it ∈ [(⟨["x.gpg.gpg"], FType.file⟩ : FSItem)],
        it.ftype = FType.file ∧ hasGpgExtension it.path ∧
          (["x.gpg"] : Path) = stripLastExtension it.path :=
  ⟨⟨by decide, by decide⟩,
    C5_leaf_suffix_stripped_once [⟨["x.gpg.gpg"], FType.file⟩]
      ⟨["x.gpg"], EntryKind.entry⟩ (by decide) (by decide)⟩

/-- C6: the indexer skips only items whose own file name is `.git`; the
walker still descends into `.git`, so a store whose `.git` has a
subdirectory gets an index entry with `.git` as a path component —
contradicting the claim that no produced entry has one. The `.git` item
itself is skipped and the synthetic root is present. -/
theorem C6_git_contents_indexed :
    (⟨[".git", "objects"], EntryKind.dir⟩ : StoreEntry) ∈
        build_store_index gitWalk ∧
      ".git" ∈ ([".git", "objects"] : Path) ∧
      (∀ e ∈ build_store_index gitWalk, e.path ≠ [".git"]) ∧
      (⟨[], EntryKind.dir⟩ : StoreEntry) ∈ build_store_index gitWalk := by
  decide

end PassTui

namespace PassTui

/-! ## Order facts about the entry comparator -/

theorem charCmp_lt_iff {a b : Char} : charCmp a b = Ordering.lt ↔ a < b := by
  unfold charCmp
  by_cases h1 : a < b
  · rw [if_pos h1]
    simp [h1]
  · rw [if_neg h1]
    by_cases h2 : b < a
    · rw [if_pos h2]
      simp [h1]
    · rw [if_neg h2]
      simp [h1]

theorem charCmp_gt_iff {a b : Char} : charCmp a b = Ordering.gt ↔ b < a := by
  unfold charCmp
  by_cases h1 : a < b
  · rw [if_pos h1]
    simp
    exact le_of_lt h1
  · rw [if_neg h1]
    by_cases h2 : b < a
    · rw [if_pos h2]
      simp [h2]
    · rw [if_neg h2]
      simp [h2]

theorem charCmp_eq_iff {a b : Char} : charCmp a b = Ordering.eq ↔ a = b := by
  unfold charCmp
  by_cases h1 : a < b
  · rw [if_pos h1]
    simp
    exact ne_of_lt h1
  · rw [if_neg h1]
    by_cases h2 : b < a
    · rw [if_pos h2]
      simp
      exact (ne_of_lt h2).symm
    · rw [if_neg h2]
      simp
      exact le_antisymm (le_of_not_lt h2) (le_of_not_lt h1)

theorem charListCmp_eq_iff :
    ∀ {x y : List Char}, charListCmp x y = Ordering.eq ↔ x = y := by
  intro x
  induction x with
  | nil =>
    intro y
    cases y <;> simp [charListCmp]
  | cons a as ih =>
    intro y
    cases y with
    | nil => simp [charListCmp]
    | cons b bs =>
      rcases hab : charCmp a b with h | h | h
      · simp only [charListCmp, hab]
        have : a ≠ b := fun h' => by
          rw [charCmp_eq_iff.mpr h'] at hab
          cases hab
        simp [this]
      · have hb : a = b := charCmp_eq_iff.mp hab
        subst hb
        simp only [charListCmp, hab]
        rw [ih]
        simp
      · simp only [charListCmp, hab]
        have : a ≠ b := fun h' => by
          rw [charCmp_eq_iff.mpr h'] at hab
          cases hab
        simp [this]

theorem charListCmp_gt_iff :
    ∀ {x y : List Char},
      charListCmp x y = Ordering.gt ↔ charListCmp y x = Ordering.lt := by
  intro x
  induction x with
  | nil =>
    intro y
    cases y <;> simp [charListCmp]
  | cons a as ih =>
    intro y
    cases y with
    | nil => simp [charListCmp]
    | cons b bs =>
      rcases hab : charCmp a b with h | h | h
      · have hba : charCmp b a = Ordering.gt :=
          charCmp_gt_iff.mpr (charCmp_lt_iff.mp hab)
        simp [charListCmp, hab, hba]
      · have hb : a = b := charCmp_eq_iff.mp hab
        subst hb
        simp only [charListCmp, hab]
        exact ih
      · have hba : charCmp b a = Ordering.lt :=
          charCmp_lt_iff.mpr (charCmp_gt_iff.mp hab)
        simp [charListCmp, hab, hba]

theorem charListCmp_lt_trans :
    ∀ {x y z : List Char}, charListCmp x y = Ordering.lt →
      charListCmp y z = Ordering.lt → charListCmp x z = Ordering.lt := by
  intro x
  induction x with
  | nil =>
    intro y z hxy hyz
    cases z with
    | nil =>
      cases y with
      | nil => cases hxy
      | cons b bs =>
        cases hyz
    | cons c cs => simp [charListCmp]
  | cons a as ih =>
    intro y z hxy hyz
    cases y with
    | nil => cases hxy
    | cons b bs =>
      cases z with
      | nil => cases hyz
      | cons c cs =>
        rcases hab : charCmp a b with h | h | h
        · rcases hbc : charCmp b c with h' | h' | h'
          · have : charCmp a c = Ordering.lt :=
              charCmp_lt_iff.mpr
                (lt_trans (charCmp_lt_iff.mp hab) (charCmp_lt_iff.mp hbc))
            simp [charListCmp, this]
          · have hb : b = c := charCmp_eq_iff.mp hbc
            subst hb
            simp [charListCmp, hab]
          · rw [charListCmp, hbc] at hyz
            cases hyz
        · have hb : a = b := charCmp_eq_iff.mp hab
          subst hb
          rw [charListCmp, hab] at hxy
          rcases hbc : charCmp a c with h' | h' | h'
          · simp [charListCmp, hbc]
          · have hb : a = c := charCmp_eq_iff.mp hbc
            subst hb
            rw [charListCmp, hbc] at hyz
            simp only [charListCmp, hbc]
            exact ih hxy hyz
          · rw [charListCmp, hbc] at hyz
            cases hyz
        · rw [charListCmp, hab] at hxy
          cases hxy

theorem segCmp_eq_iff {a b : String} : segCmp a b = Ordering.eq ↔ a = b := by
  unfold segCmp
  rw [charListCmp_eq_iff]
  exact ⟨fun h => String.ext h, fun h => by rw [h]⟩

theorem segCmp_gt_iff {a b : String} :
    segCmp a b = Ordering.gt ↔ segCmp b a = Ordering.lt :=
  charListCmp_gt_iff

theorem segCmp_lt_trans {a b c : String} (h1 : segCmp a b = Ordering.lt)
    (h2 : segCmp b c = Ordering.lt) : segCmp a c = Ordering.lt :=
  charListCmp_lt_trans h1 h2

theorem pathCmp_eq_iff :
    ∀ {x y : Path}, pathCmp x y = Ordering.eq ↔ x = y := by
  intro x
  induction x with
  | nil =>
    intro y
    cases y <;> simp [pathCmp]
  | cons a as ih =>
    intro y
    cases y with
    | nil => simp [pathCmp]
    | cons b bs =>
      rcases hab : segCmp a b with h | h | h
      · simp only [pathCmp, hab]
        have : a ≠ b := fun h' => by
          rw [segCmp_eq_iff.mpr h'] at hab
          cases hab
        simp [this]
      · have hb : a = b := segCmp_eq_iff.mp hab
        subst hb
        simp only [pathCmp, hab]
        rw [ih]
        simp
      · simp only [pathCmp, hab]
        have : a ≠ b := fun h' => by
          rw [segCmp_eq_iff.mpr h'] at hab
          cases hab
        simp [this]

theorem pathCmp_gt_iff :
    ∀ {x y : Path}, pathCmp x y = Ordering.gt ↔ pathCmp y x = Ordering.lt := by
  intro x
  induction x with
  | nil =>
    intro y
    cases y <;> simp [pathCmp]
  | cons a as ih =>
    intro y
    cases y with
    | nil => simp [pathCmp]
    | cons b bs =>
      rcases hab : segCmp a b with h | h | h
      · have hba : segCmp b a = Ordering.gt :=
          segCmp_gt_iff.mpr hab
        simp [pathCmp, hab, hba]
      · have hb : a = b := segCmp_eq_iff.mp hab
        subst hb
        simp only [pathCmp, hab]
        exact ih
      · have hba : segCmp b a = Ordering.lt := segCmp_gt_iff.mp hab
        simp [pathCmp, hab, hba]

theorem pathCmp_lt_trans :
    ∀ {x y z : Path}, pathCmp x y = Ordering.lt →
      pathCmp y z = Ordering.lt → pathCmp x z = Ordering.lt := by
  intro x
  induction x with
  | nil =>
    intro y z hxy hyz
    cases z with
    | nil =>
      cases y with
      | nil => cases hxy
      | cons b bs => cases hyz
    | cons c cs => simp [pathCmp]
  | cons a as ih =>
    intro y z hxy hyz
    cases y with
    | nil => cases hxy
    | cons b bs =>
      cases z with
      | nil => cases hyz
      | cons c cs =>
        rcases hab : segCmp a b with h | h | h
        · rcases hbc : segCmp b c with h' | h' | h'
          · have : segCmp a c = Ordering.lt :=
              segCmp_lt_trans hab hbc
            simp [pathCmp, this]
          · have hb : b = c := segCmp_eq_iff.mp hbc
            subst hb
            simp [pathCmp, hab]
          · rw [pathCmp, hbc] at hyz
            cases hyz
        · have hb : a = b := segCmp_eq_iff.mp hab
          subst hb
          rw [pathCmp, hab] at hxy
          rcases hbc : segCmp a c with h' | h' | h'
          · simp [pathCmp, hbc]
          · have hb : a = c := segCmp_eq_iff.mp hbc
            subst hb
            rw [pathCmp, hbc] at hyz
            simp only [pathCmp, hbc]
            exact ih hxy hyz
          · rw [pathCmp, hbc] at hyz
            cases hyz
        · rw [pathCmp, hab] at hxy
          cases hxy

theorem cmpStore_eq_iff {a b : StoreEntry} :
    cmpStoreEntries a b = Ordering.eq ↔ a = b := by
  cases a with
  | mk pa ka =>
    cases b with
    | mk pb kb =>
      cases ka <;> cases kb <;>
        simp [cmpStoreEntries, pathCmp_eq_iff, StoreEntry.mk.injEq]

theorem cmpStore_gt_iff {a b : StoreEntry} :
    cmpStoreEntries a b = Ordering.gt ↔ cmpStoreEntries b a = Ordering.lt := by
  cases a with
  | mk pa ka =>
    cases b with
    | mk pb kb =>
      cases ka <;> cases kb <;> simp [cmpStoreEntries, pathCmp_gt_iff]

theorem cmpStore_lt_trans {a b c : StoreEntry}
    (h1 : cmpStoreEntries a b = Ordering.lt)
    (h2 : cmpStoreEntries b c = Ordering.lt) :
    cmpStoreEntries a c = Ordering.lt := by
  cases a with
  | mk pa ka =>
    cases b with
    | mk pb kb =>
      cases c with
      | mk pc kc =>
        cases ka <;> cases kb <;> cases kc <;>
          simp_all [cmpStoreEntries] <;>
          exact pathCmp_lt_trans h1 h2

theorem storeEntryLe_total (a b : StoreEntry) : storeEntryLe a b ∨ storeEntryLe b a := by
  unfold storeEntryLe
  rcases h : cmpStoreEntries a b with h1 | h1 | h1
  · left
    simp
  · left
    simp
  · right
    rw [cmpStore_gt_iff.mp h]
    simp

theorem storeEntryLe_trans {a b c : StoreEntry} (h1 : storeEntryLe a b)
    (h2 : storeEntryLe b c) : storeEntryLe a c := by
  unfold storeEntryLe at h1 h2 ⊢
  rcases hab : cmpStoreEntries a b with h | h | h
  · rcases hbc : cmpStoreEntries b c with h' | h' | h'
    · rw [cmpStore_lt_trans hab hbc]
      simp
    · rw [cmpStore_eq_iff.mp hbc] at hab
      rw [hab]
      simp
    · exact absurd hbc h2
  · rw [cmpStore_eq_iff.mp hab]
    exact h2
  · exact absurd hab h1

end PassTui

namespace PassTui

/-! ## Prefix toolbox and the include-set characterization -/

theorem dropLast_pre {α : Type _} (l : List α) : l.dropLast <+: l := by
  by_cases h : l = []
  · subst h
    exact ⟨[], rfl⟩
  · exact ⟨[l.getLast h], List.dropLast_append_getLast h⟩

theorem pre_len_lt {α : Type _} {l₁ l₂ : List α} (h : l₁ <+: l₂)
    (hne : l₁ ≠ l₂) : l₁.length < l₂.length :=
  lt_of_le_of_ne h.length_le fun he => hne (h.eq_of_length he)

theorem pre_of_pre_length_le {α : Type _} {l₁ l₂ l₃ : List α}
    (h1 : l₁ <+: l₃) (h2 : l₂ <+: l₃) (h : l₁.length ≤ l₂.length) :
    l₁ <+: l₂ := by
  exact List.prefix_of_prefix_length_le h1 h2 h

theorem lookup_mem {l : List (Path × Nat)} {a : Path} {b : Nat}
    (h : List.lookup a l = some b) : (a, b) ∈ l := by
  induction l with
  | nil => cases h
  | cons p t ih =>
    cases p with
    | mk k v =>
      by_cases hk : a = k
      · subst hk
        simp [List.lookup] at h
        subst h
        exact List.mem_cons_self _ _
      · have hbeq : (a == k) = false := beq_false_of_ne hk
        rw [List.lookup, hbeq] at h
        exact List.mem_cons_of_mem _ (ih h)

theorem relOf_append {cwd p : Path} (h : cwd <+: p) :
    cwd ++ relOf cwd p = p := by
  rcases h with ⟨t, rfl⟩
  unfold relOf
  rw [if_pos ⟨t, rfl⟩, List.drop_left]

theorem relOf_wf {cwd p : Path} (hw : wfPath p) : wfPath (relOf cwd p) := by
  unfold relOf
  by_cases h : cwd <+: p
  · rw [if_pos h]
    exact fun s hs => hw s (List.mem_of_mem_drop hs)
  · rw [if_neg h]
    exact hw

theorem wfPath_dropLast {p : Path} (h : wfPath p) : wfPath p.dropLast :=
  fun s hs => h s ((List.dropLast_sublist p).subset hs)

theorem addVisibleAncestorsGo_spec (entries : List StoreEntry) (cwd : Path)
    (ibp : List (Path × Nat)) (hibp : mapOK entries ibp) (base : Path) :
    ∀ (revcur : List String) (inc : Finset Nat),
      revcur.reverse <+: base →
      cwd <+: revcur.reverse →
      revcur.reverse ≠ cwd →
      ∀ x ∈ addVisibleAncestorsGo cwd ibp revcur inc,
        x ∈ inc ∨
          (x < entries.length ∧ cwd <+: (entryAt entries x).path ∧
            (entryAt entries x).path ≠ cwd ∧
            (entryAt entries x).path <+: base ∧
            (entryAt entries x).path ≠ base) := by
  intro revcur
  induction revcur with
  | nil =>
    intro inc _ _ _ x hx
    exact Or.inl hx
  | cons seg rest ih =>
    intro inc hbase hcwd hnecwd x hx
    rw [addVisibleAncestorsGo] at hx
    have hcur : (seg :: rest).reverse = rest.reverse ++ [seg] := by
      simp
    by_cases hpar : rest.reverse = cwd
    · rw [if_pos hpar] at hx
      exact Or.inl hx
    · rw [if_neg hpar] at hx
      have hrest_pre : rest.reverse <+: (seg :: rest).reverse := by
        rw [hcur]
        exact ⟨[seg], rfl⟩
      have hrest_base : rest.reverse <+: base := hrest_pre.trans hbase
      have hlen : cwd.length < (seg :: rest).reverse.length :=
        pre_len_lt hcwd (Ne.symm hnecwd)
      have hlen2 : cwd.length ≤ rest.reverse.length := by
        rw [hcur] at hlen
        simp only [List.length_append, List.length_reverse, List.length_cons,
          List.length_nil] at hlen
        simp only [List.length_reverse]
        omega
      have hcwd_rest : cwd <+: rest.reverse :=
        pre_of_pre_length_le (hcwd.trans hbase) hrest_base hlen2
      have hmain := ih _ hrest_base hcwd_rest hpar x hx
      rcases hmain with hmem | hspec
      · rcases hlk : List.lookup rest.reverse ibp with _ | pidx
        · rw [hlk] at hmem
          exact Or.inl hmem
        · rw [hlk] at hmem
          rcases Finset.mem_insert.mp hmem with hx1 | hx1
          · subst hx1
            have hb := hibp _ (lookup_mem hlk)
            refine Or.inr ⟨hb.1, ?_, ?_, ?_, ?_⟩
            · rw [hb.2]
              exact hcwd_rest
            · rw [hb.2]
              exact hpar
            · rw [hb.2]
              exact hrest_base
            · rw [hb.2]
              intro heq
              have h2 : (seg :: rest).reverse.length ≤ base.length :=
                hbase.length_le
              have h3 := congrArg List.length heq
              simp only [List.length_reverse, List.length_cons] at h2 h3
              omega
          · exact Or.inl hx1
      · exact Or.inr hspec

theorem filterScanGo_spec (entries : List StoreEntry) (cwd : Path)
    (filter : String) (fA : Bool) :
    ∀ (pairs : List (Nat × StoreEntry)) (ibp : List (Path × Nat))
      (inc : Finset Nat),
      mapOK entries ibp →
      (∀ pr ∈ pairs, pr.1 < entries.length ∧ entryAt entries pr.1 = pr.2) →
      ∀ x ∈ filterScanGo cwd filter fA pairs ibp inc,
        x ∈ inc ∨ inclSpec entries cwd filter fA x := by
  intro pairs
  induction pairs with
  | nil =>
    intro ibp inc _ _ x hx
    exact Or.inl hx
  | cons pr rest ih =>
    intro ibp inc hibp hpairs x hx
    cases pr with
    | mk idx e =>
      have hhead := hpairs (idx, e) (List.mem_cons_self _ _)
      have hrest : ∀ pr ∈ rest, pr.1 < entries.length ∧
          entryAt entries pr.1 = pr.2 :=
        fun pr hpr => hpairs pr (List.mem_cons_of_mem _ hpr)
      have hibp' : mapOK entries ((e.path, idx) :: ibp) := by
        intro pr hpr
        rcases List.mem_cons.mp hpr with h | h
        · rw [h]
          exact ⟨hhead.1, by rw [hhead.2]⟩
        · exact hibp pr h
      rw [filterScanGo] at hx
      by_cases h1 : ¬ (cwd <+: e.path) ∨ e.path = cwd
      · rw [if_pos h1] at hx
        exact ih _ _ hibp' hrest x hx
      · rw [if_neg h1] at hx
        push_neg at h1
        by_cases h2 : fA ∧ ¬ (filter.data <:+: e.display_name.data)
        · rw [if_pos h2] at hx
          exact ih _ _ hibp' hrest x hx
        · rw [if_neg h2] at hx
          have hmatch : fA → filter.data <:+: e.display_name.data := by
            intro hfa
            by_contra hc
            exact h2 ⟨hfa, hc⟩
          have hbase : inclSpec entries cwd filter fA idx := by
            refine ⟨hhead.1, ?_, ?_, Or.inl ?_⟩
            · rw [hhead.2]
              exact h1.1
            · rw [hhead.2]
              exact h1.2
            · rw [hhead.2]
              exact hmatch
          have hstep := ih _ _ hibp' hrest x hx
          rcases hstep with hmem | hspec
          · by_cases hfa : fA
            · rw [if_pos hfa] at hmem
              have hav := addVisibleAncestorsGo_spec entries cwd _ hibp'
                e.path e.path.reverse (insert idx inc)
                (by rw [List.reverse_reverse])
                (by rw [List.reverse_reverse]; exact h1.1)
                (by rw [List.reverse_reverse]; exact h1.2) x hmem
              rcases hav with hmem2 | hanc
              · rcases Finset.mem_insert.mp hmem2 with hx1 | hx1
                · subst hx1
                  exact Or.inr hbase
                · exact Or.inl hx1
              · refine Or.inr ⟨hanc.1, hanc.2.1, hanc.2.2.1, Or.inr
                  ⟨idx, hhead.1, ?_, ?_, ?_, ?_, ?_⟩⟩
                · rw [hhead.2]
                  exact h1.1
                · rw [hhead.2]
                  exact h1.2
                · rw [hhead.2]
                  exact hmatch
                · rw [hhead.2]
                  exact hanc.2.2.2.1
                · rw [hhead.2]
                  exact hanc.2.2.2.2
            · rw [if_neg hfa] at hmem
              rcases Finset.mem_insert.mp hmem with hx1 | hx1
              · subst hx1
                exact Or.inr hbase
              · exact Or.inl hx1
          · exact Or.inr hspec

theorem filterScan_spec (entries : List StoreEntry) (cwd : Path)
    (filter : String) :
    ∀ x ∈ filterScan entries cwd filter,
      inclSpec entries cwd filter (!filter.isEmpty) x := by
  intro x hx
  unfold filterScan at hx
  have hpairs : ∀ pr ∈ entries.enum, pr.1 < entries.length ∧
      entryAt entries pr.1 = pr.2 := by
    intro pr hpr
    cases pr with
    | mk i e =>
      have h := List.mem_enum hpr
      exact ⟨h.1, by rw [h.2]; exact List.getD_eq_getElem entries _ h.1⟩
  have := filterScanGo_spec entries cwd filter (!filter.isEmpty)
    entries.enum [] ∅ (fun pr hpr => absurd hpr (List.not_mem_nil pr))
    hpairs x hx
  rcases this with h | h
  · exact absurd h (Finset.not_mem_empty x)
  · exact h

end PassTui

namespace PassTui

/-! ## The grouped sibling lists -/

theorem mem_childrenOf {entries : List StoreEntry} {cwd : Path}
    {inc : Finset Nat} {k : String} {i : Nat} :
    i ∈ childrenOf entries cwd inc k ↔
      i < entries.length ∧ i ∈ inc ∧
        relOf cwd (entryAt entries i).path ≠ [] ∧
        parentStoreKey (relOf cwd (entryAt entries i).path) = k := by
  unfold childrenOf
  rw [(List.perm_insertionSort (entryIdxLe entries) _).mem_iff,
    List.mem_filter, List.mem_range, decide_eq_true_iff]

theorem childrenOf_nodup (entries : List StoreEntry) (cwd : Path)
    (inc : Finset Nat) (k : String) : (childrenOf entries cwd inc k).Nodup :=
  (List.perm_insertionSort (entryIdxLe entries) _).nodup_iff.mpr
    (List.Nodup.filter _ (List.nodup_range _))

theorem childrenOf_sorted (entries : List StoreEntry) (cwd : Path)
    (inc : Finset Nat) (k : String) :
    List.Pairwise (entryIdxLe entries) (childrenOf entries cwd inc k) := by
  haveI h1 : IsTotal Nat (entryIdxLe entries) :=
    ⟨fun i j => storeEntryLe_total (entryAt entries i) (entryAt entries j)⟩
  haveI h2 : IsTrans Nat (entryIdxLe entries) :=
    ⟨fun _ _ _ h h' => storeEntryLe_trans h h'⟩
  exact List.sorted_insertionSort _ _

theorem childrenOf_pairwise_lt {entries : List StoreEntry}
    (hnd : entries.Nodup) (cwd : Path) (inc : Finset Nat) (k : String) :
    List.Pairwise (fun i j => cmp_entries entries i j = Ordering.lt)
      (childrenOf entries cwd inc k) := by
  refine List.Pairwise.imp_of_mem ?_
    ((childrenOf_sorted entries cwd inc k).and
      (childrenOf_nodup entries cwd inc k))
  intro i j hi hj h
  rcases h with ⟨hle, hne⟩
  have hi' := mem_childrenOf.mp hi
  have hj' := mem_childrenOf.mp hj
  rcases hcmp : cmp_entries entries i j with h1 | h1 | h1
  · rfl
  · exfalso
    have heq : entryAt entries i = entryAt entries j := cmpStore_eq_iff.mp hcmp
    have hgi : entryAt entries i = entries[i] :=
      List.getD_eq_getElem entries _ hi'.1
    have hgj : entryAt entries j = entries[j] :=
      List.getD_eq_getElem entries _ hj'.1
    rw [hgi, hgj] at heq
    exact hne (hnd.getElem_inj_iff.mp heq)
  · exact absurd hcmp hle

/-! ## Generic facts about the row builder -/

theorem buildRowsGo_forall (entries : List StoreEntry) (cwd : Path)
    (expanded : Finset String) (fA : Bool)
    (recur : String → List Bool → List ViewRow) (P : ViewRow → Prop)
    (hrec : ∀ k st r, r ∈ recur k st → P r) :
    ∀ (sibs : List Nat) (st : List Bool),
      (∀ i ∈ sibs, ∀ br : List Bool, P ⟨i, br⟩) →
      ∀ r ∈ buildRowsGo entries cwd expanded fA recur sibs st, P r := by
  intro sibs
  induction sibs with
  | nil =>
    intro st _ r hr
    cases hr
  | cons i rest ih =>
    intro st hsibs r hr
    rw [buildRowsGo] at hr
    rcases List.mem_cons.mp hr with hr1 | hr1
    · rw [hr1]
      exact hsibs i (List.mem_cons_self _ _) _
    · rcases List.mem_append.mp hr1 with hr2 | hr2
      · by_cases hc : (entryAt entries i).kind = EntryKind.dir ∧
            (fA ∨ entry_key entries cwd i ∈ expanded)
        · rw [if_pos hc] at hr2
          exact hrec _ _ r hr2
        · rw [if_neg hc] at hr2
          cases hr2
      · exact ih st (fun j hj => hsibs j (List.mem_cons_of_mem _ hj)) r hr2

theorem buildRowsFuel_forall (entries : List StoreEntry) (cwd : Path)
    (expanded : Finset String) (fA : Bool) (ch : String → List Nat)
    (P : ViewRow → Prop)
    (hch : ∀ k, ∀ i ∈ ch k, ∀ br : List Bool, P ⟨i, br⟩) :
    ∀ (fuel : Nat) (k : String) (st : List Bool),
      ∀ r ∈ buildRowsFuel entries cwd expanded fA ch fuel k st, P r := by
  intro fuel
  induction fuel with
  | zero =>
    intro k st r hr
    cases hr
  | succ fuel ihf =>
    intro k st r hr
    rw [buildRowsFuel] at hr
    exact buildRowsGo_forall entries cwd expanded fA _ P
      (fun k' st' r' hr' => ihf k' st' r' hr') (ch k) st (hch k) r hr

/-! ## Claim C10: what filtering lets through -/

/-- C10, counterexample: with the store `a/` (directory), `a.gpg`, `a/b.gpg`
and filter `"b"`, the recomputed row list is exactly the single row of the
*leaf* `a` (the map from paths to indices was overwritten by the leaf that
shares the directory's path): that row's name does not contain the filter
and the row is not a directory, so the claim's disjunction fails for it. -/
theorem C10_counterexample :
    (App.apply_filter
        { baseApp with entries := mixedStore, filter := "b" }).rows =
      [⟨2, [true]⟩] ∧
      (entryAt mixedStore 2).kind = EntryKind.entry ∧
      ¬ ("b".data <:+: (entryAt mixedStore 2).display_name.data) := by
  decide

/-- C10 (amended): when filtering is active, an entry appears in the row
list only if its own display name contains the filter substring, or its
path is a strict prefix (an ancestor path) of the path of some
strictly-inside-`cwd` entry whose display name matches. The entry holding
the ancestor path is normally the ancestor directory, but when a leaf
shares that path, the included entry is the leaf (the path map keeps the
latest entry for a path). -/
theorem C10_filter_inclusion (a : App) (hf : a.filter ≠ "") (r : ViewRow)
    (hr : r ∈ (App.apply_filter a).rows) :
    a.filter.data <:+: (entryAt a.entries r.idx).display_name.data ∨
      ∃ j, j < a.entries.length ∧
        a.filter.data <:+: (entryAt a.entries j).display_name.data ∧
        (entryAt a.entries r.idx).path <+: (entryAt a.entries j).path ∧
        (entryAt a.entries r.idx).path ≠ (entryAt a.entries j).path := by
  have hfa : (!a.filter.isEmpty) = true := by
    rcases h : a.filter.isEmpty with _ | _
    · rfl
    · exact absurd ((String.isEmpty_iff _).mp h) hf
  have hrows : (App.apply_filter a).rows =
      recomputeRows a.entries a.cwd a.filter a.expanded := rfl
  rw [hrows] at hr
  unfold recomputeRows at hr
  refine buildRowsFuel_forall a.entries a.cwd a.expanded _ _
    (fun r => a.filter.data <:+: (entryAt a.entries r.idx).display_name.data ∨
      ∃ j, j < a.entries.length ∧
        a.filter.data <:+: (entryAt a.entries j).display_name.data ∧
        (entryAt a.entries r.idx).path <+: (entryAt a.entries j).path ∧
        (entryAt a.entries r.idx).path ≠ (entryAt a.entries j).path)
    ?_ _ _ _ r hr
  intro k i hik br
  have hmem := mem_childrenOf.mp hik
  have hspec := filterScan_spec a.entries a.cwd a.filter i hmem.2.1
  rcases hspec.2.2.2 with hm | ⟨j, hj1, _, _, hj4, hj5, hj6⟩
  · exact Or.inl (hm hfa)
  · exact Or.inr ⟨j, hj1, hj4 hfa, hj5, hj6⟩

/-- Witness for `C10_filter_inclusion` on the mixed store with filter
`"b"`. -/
theorem C10_filter_inclusion_witness :
    (({ baseApp with entries := mixedStore, filter := "b" } : App).filter ≠
        "") ∧
      (⟨2, [true]⟩ : ViewRow) ∈
        (App.apply_filter
          { baseApp with entries := mixedStore, filter := "b" }).rows ∧
      ("b".data <:+:
          (entryAt mixedStore 2).display_name.data ∨
        ∃ j, j < mixedStore.length ∧
          "b".data <:+: (entryAt mixedStore j).display_name.data ∧
          (entryAt mixedStore 2).path <+: (entryAt mixedStore j).path ∧
          (entryAt mixedStore 2).path ≠ (entryAt mixedStore j).path) :=
  ⟨by decide, by decide,
    C10_filter_inclusion { baseApp with entries := mixedStore, filter := "b" }
      (by decide) ⟨2, [true]⟩ (by decide)⟩

end PassTui

namespace PassTui

/-! ## Claim C1: ancestor preservation -/

theorem dropLast_append_ne {α : Type _} {l₁ l₂ : List α} (h : l₂ ≠ []) :
    (l₁ ++ l₂).dropLast = l₁ ++ l₂.dropLast := by
  cases l₂ with
  | nil => exact absurd rfl h
  | cons b t => exact List.dropLast_append_cons

theorem buildRowsGo_reach (entries : List StoreEntry) (cwd : Path)
    (expanded : Finset String) (fA : Bool)
    (recur : String → List Bool → List ViewRow) (k : String)
    (hrec : ∀ k' st' r', r' ∈ recur k' st' →
      viewRowParentKey entries cwd r' = k' ∨
        ∃ d ∈ recur k' st', (entryAt entries d.idx).kind = EntryKind.dir ∧
          viewRowParentKey entries cwd r' = entry_key entries cwd d.idx) :
    ∀ (sibs : List Nat) (st : List Bool),
      (∀ i ∈ sibs, parentStoreKey (relOf cwd (entryAt entries i).path) = k) →
      ∀ r ∈ buildRowsGo entries cwd expanded fA recur sibs st,
        viewRowParentKey entries cwd r = k ∨
          ∃ d ∈ buildRowsGo entries cwd expanded fA recur sibs st,
            (entryAt entries d.idx).kind = EntryKind.dir ∧
            viewRowParentKey entries cwd r = entry_key entries cwd d.idx := by
  intro sibs
  induction sibs with
  | nil =>
    intro st _ r hr
    cases hr
  | cons i rest ih =>
    intro st hsibs r hr
    rw [buildRowsGo] at hr ⊢
    rcases List.mem_cons.mp hr with hr1 | hr1
    · left
      rw [hr1]
      exact hsibs i (List.mem_cons_self _ _)
    · rcases List.mem_append.mp hr1 with hr2 | hr2
      · by_cases hc : (entryAt entries i).kind = EntryKind.dir ∧
            (fA ∨ entry_key entries cwd i ∈ expanded)
        · rw [if_pos hc] at hr2
          rcases hrec _ _ r hr2 with hl | ⟨d, hd, hdir, heq⟩
          · right
            refine ⟨⟨i, st ++ [rest.isEmpty]⟩, List.mem_cons_self _ _,
              hc.1, ?_⟩
            exact hl
          · right
            refine ⟨d, ?_, hdir, heq⟩
            refine List.mem_cons_of_mem _ (List.mem_append.mpr (Or.inl ?_))
            rw [if_pos hc]
            exact hd
        · rw [if_neg hc] at hr2
          cases hr2
      · rcases ih st (fun j hj => hsibs j (List.mem_cons_of_mem _ hj)) r hr2
          with hl | ⟨d, hd, hdir, heq⟩
        · exact Or.inl hl
        · exact Or.inr ⟨d, List.mem_cons_of_mem _ (List.mem_append.mpr
            (Or.inr hd)), hdir, heq⟩

theorem buildRowsFuel_reach (entries : List StoreEntry) (cwd : Path)
    (expanded : Finset String) (fA : Bool) (ch : String → List Nat)
    (hch : ∀ k, ∀ i ∈ ch k,
      parentStoreKey (relOf cwd (entryAt entries i).path) = k) :
    ∀ (fuel : Nat) (k : String) (st : List Bool),
      ∀ r ∈ buildRowsFuel entries cwd expanded fA ch fuel k st,
        viewRowParentKey entries cwd r = k ∨
          ∃ d ∈ buildRowsFuel entries cwd expanded fA ch fuel k st,
            (entryAt entries d.idx).kind = EntryKind.dir ∧
            viewRowParentKey entries cwd r = entry_key entries cwd d.idx := by
  intro fuel
  induction fuel with
  | zero =>
    intro k st r hr
    cases hr
  | succ fuel ihf =>
    intro k st r hr
    rw [buildRowsFuel] at hr ⊢
    exact buildRowsGo_reach entries cwd expanded fA _ k
      (fun k' st' r' hr' => ihf k' st' r' hr') (ch k) st (hch k) r hr

/-- C1: with filtering active, every entry in the recomputed row list has
all its ancestor directories strictly between `cwd` and itself present in
the row list (stated for indexes whose paths have non-empty, `'/'`-free
segments, which every real store walk produces). -/
theorem C1_ancestor_preservation (a : App)
    (hwf : ∀ e ∈ a.entries, wfPath e.path) (_hf : a.filter ≠ "")
    (r : ViewRow) (hr : r ∈ (App.apply_filter a).rows)
    (p : Path) (hp1 : a.cwd <+: p) (hp2 : p ≠ a.cwd)
    (hp3 : p <+: (entryAt a.entries r.idx).path)
    (hp4 : p ≠ (entryAt a.entries r.idx).path) :
    ∃ d ∈ (App.apply_filter a).rows,
      (entryAt a.entries d.idx).kind = EntryKind.dir ∧
      (entryAt a.entries d.idx).path = p := by
  have hrows : (App.apply_filter a).rows =
      recomputeRows a.entries a.cwd a.filter a.expanded := rfl
  rw [hrows] at hr ⊢
  simp only [recomputeRows] at hr ⊢
  set inc := filterScan a.entries a.cwd a.filter with hincdef
  set ch := childrenOf a.entries a.cwd inc with hchdef
  set ROWS := buildRowsFuel a.entries a.cwd a.expanded (!a.filter.isEmpty)
    ch (a.entries.length + 1) "" [] with hROWSdef
  have hchpk : ∀ k, ∀ i ∈ ch k,
      parentStoreKey (relOf a.cwd (entryAt a.entries i).path) = k :=
    fun k i hik => (mem_childrenOf.mp hik).2.2.2
  have hbasic : ∀ r' ∈ ROWS, r'.idx < a.entries.length ∧ r'.idx ∈ inc ∧
      relOf a.cwd (entryAt a.entries r'.idx).path ≠ [] := by
    refine buildRowsFuel_forall a.entries a.cwd a.expanded _ ch
      (fun r' => r'.idx < a.entries.length ∧ r'.idx ∈ inc ∧
        relOf a.cwd (entryAt a.entries r'.idx).path ≠ []) ?_ _ _ _
    intro k i hik _
    have h := mem_childrenOf.mp hik
    exact ⟨h.1, h.2.1, h.2.2.1⟩
  have hwfAt : ∀ i, i < a.entries.length →
      wfPath (entryAt a.entries i).path := by
    intro i hi
    have hg : entryAt a.entries i = a.entries[i] :=
      List.getD_eq_getElem _ _ hi
    rw [hg]
    exact hwf _ (a.entries.getElem_mem hi)
  have main : ∀ N : Nat, ∀ r' ∈ ROWS,
      (entryAt a.entries r'.idx).path.length ≤ N →
      ∀ q : Path, a.cwd <+: q → q ≠ a.cwd →
        q <+: (entryAt a.entries r'.idx).path →
        q ≠ (entryAt a.entries r'.idx).path →
        ∃ d ∈ ROWS, (entryAt a.entries d.idx).kind = EntryKind.dir ∧
          (entryAt a.entries d.idx).path = q := by
    intro N
    induction N with
    | zero =>
      intro r' hr' hlen q _ _ hq3 hq4
      exfalso
      have hnil : (entryAt a.entries r'.idx).path = [] :=
        List.length_eq_zero.mp (Nat.le_antisymm hlen (Nat.zero_le _))
      rcases hq3 with ⟨t, ht⟩
      rw [hnil] at ht
      exact hq4 (by rw [hnil]; exact (List.append_eq_nil.mp ht).1)
    | succ N ihN =>
      intro r' hr' hlen q hq1 hq2 hq3 hq4
      obtain ⟨hlt, hinc', hrelne⟩ := hbasic r' hr'
      have hscan := filterScan_spec a.entries a.cwd a.filter _ hinc'
      have hPrel : a.cwd ++ relOf a.cwd (entryAt a.entries r'.idx).path =
          (entryAt a.entries r'.idx).path := relOf_append hscan.2.1
      have hwfrelr : wfPath (relOf a.cwd (entryAt a.entries r'.idx).path) :=
        relOf_wf (hwfAt _ hlt)
      rcases buildRowsFuel_reach a.entries a.cwd a.expanded
          (!a.filter.isEmpty) ch hchpk (a.entries.length + 1) "" [] r' hr'
        with hroot | ⟨d, hd, hdir, heq⟩
      · exfalso
        unfold viewRowParentKey parentStoreKey at hroot
        rw [if_neg hrelne] at hroot
        have hdl : (relOf a.cwd (entryAt a.entries r'.idx).path).dropLast =
            [] := by
          by_contra hne
          exact key_ne_empty _ (wfPath_dropLast hwfrelr) hne hroot
        have h1 : (relOf a.cwd (entryAt a.entries r'.idx).path).length = 1 := by
          have h2 := congrArg List.length hdl
          rw [List.length_dropLast] at h2
          have h3 : (relOf a.cwd (entryAt a.entries r'.idx).path).length ≠ 0 :=
            fun h => hrelne (List.length_eq_zero.mp h)
          simp at h2
          omega
        have hqlen : q.length < (entryAt a.entries r'.idx).path.length :=
          pre_len_lt hq3 hq4
        have hclen : a.cwd.length < q.length := pre_len_lt hq1 (Ne.symm hq2)
        have hPlen : (entryAt a.entries r'.idx).path.length =
            a.cwd.length + 1 := by
          rw [← hPrel]
          simp [h1]
        omega
      · obtain ⟨hdlt, hdinc, hdrelne⟩ := hbasic d hd
        have hdscan := filterScan_spec a.entries a.cwd a.filter _ hdinc
        have hdrel : a.cwd ++ relOf a.cwd (entryAt a.entries d.idx).path =
            (entryAt a.entries d.idx).path := relOf_append hdscan.2.1
        unfold viewRowParentKey parentStoreKey entry_key at heq
        rw [if_neg hrelne] at heq
        have hwfreld : wfPath (relOf a.cwd (entryAt a.entries d.idx).path) :=
          relOf_wf (hwfAt _ hdlt)
        have hreleq :
            (relOf a.cwd (entryAt a.entries r'.idx).path).dropLast =
              relOf a.cwd (entryAt a.entries d.idx).path :=
          key_inj (wfPath_dropLast hwfrelr) hwfreld heq
        have hPd : (entryAt a.entries d.idx).path =
            (entryAt a.entries r'.idx).path.dropLast := by
          calc (entryAt a.entries d.idx).path
              = a.cwd ++ relOf a.cwd (entryAt a.entries d.idx).path :=
                hdrel.symm
            _ = a.cwd ++
                  (relOf a.cwd (entryAt a.entries r'.idx).path).dropLast := by
                rw [hreleq]
            _ = (a.cwd ++ relOf a.cwd (entryAt a.entries r'.idx).path).dropLast
                := (dropLast_append_ne hrelne).symm
            _ = (entryAt a.entries r'.idx).path.dropLast := by rw [hPrel]
        have hqlen : q.length < (entryAt a.entries r'.idx).path.length :=
          pre_len_lt hq3 hq4
        have hqdl : q <+: (entryAt a.entries r'.idx).path.dropLast := by
          refine pre_of_pre_length_le hq3
            (dropLast_pre (entryAt a.entries r'.idx).path) ?_
          rw [List.length_dropLast]
          omega
        by_cases hqd : q = (entryAt a.entries d.idx).path
        · exact ⟨d, hd, hdir, hqd.symm⟩
        · refine ihN d hd ?_ q hq1 hq2 ?_ ?_
          · rw [hPd, List.length_dropLast]
            omega
          · rw [hPd]
            exact hqdl
          · exact fun h => hqd h
  exact main (entryAt a.entries r.idx).path.length r hr (Nat.le_refl _)
    p hp1 hp2 hp3 hp4

/-- Witness for `C1_ancestor_preservation`: the spec scenario store with
filter `"one"`; the leaf row `a/b/one` has its ancestor `a` present as a
directory row. -/
theorem C1_ancestor_preservation_witness :
    ((∀ e ∈ sampleStore, wfPath e.path) ∧
      ({ baseApp with entries := sampleStore, filter := "one" } : App).filter ≠
        "" ∧
      (⟨4, [true, true, true]⟩ : ViewRow) ∈
        (App.apply_filter
          { baseApp with entries := sampleStore, filter := "one" }).rows ∧
      ([] : Path) <+: ["a"] ∧ (["a"] : Path) ≠ [] ∧
      (["a"] : Path) <+: (entryAt sampleStore 4).path ∧
      (["a"] : Path) ≠ (entryAt sampleStore 4).path) ∧
      ∃ d ∈ (App.apply_filter
          { baseApp with entries := sampleStore, filter := "one" }).rows,
        (entryAt sampleStore d.idx).kind = EntryKind.dir ∧
        (entryAt sampleStore d.idx).path = ["a"] :=
  ⟨⟨by decide, by decide, by decide, by decide, by decide, by decide,
      by decide⟩,
    C1_ancestor_preservation
      { baseApp with entries := sampleStore, filter := "one" } (by decide)
      (by decide) ⟨4, [true, true, true]⟩ (by decide) ["a"] (by decide)
      (by decide) (by decide) (by decide)⟩

end PassTui

namespace PassTui

/-! ## Claim C3: sibling ordering -/

theorem buildRowsFuel_basic (entries : List StoreEntry) (cwd : Path)
    (expanded : Finset String) (fA : Bool) (ch : String → List Nat)
    (hch : ∀ k', ∀ i ∈ ch k', i < entries.length ∧
      cwd <+: (entryAt entries i).path ∧
      relOf cwd (entryAt entries i).path ≠ [] ∧
      parentStoreKey (relOf cwd (entryAt entries i).path) = k') :
    ∀ (fuel : Nat) (k : String) (st : List Bool),
      ∀ r ∈ buildRowsFuel entries cwd expanded fA ch fuel k st,
        r.idx < entries.length ∧ cwd <+: (entryAt entries r.idx).path ∧
        relOf cwd (entryAt entries r.idx).path ≠ [] := by
  refine buildRowsFuel_forall entries cwd expanded fA ch _ ?_
  intro k i hik _
  obtain ⟨h1, h2, h3, _⟩ := hch k i hik
  exact ⟨h1, h2, h3⟩

theorem buildRowsFuel_cone (entries : List StoreEntry) (cwd : Path)
    (expanded : Finset String) (fA : Bool) (ch : String → List Nat)
    (hch : ∀ k', ∀ i ∈ ch k', i < entries.length ∧
      cwd <+: (entryAt entries i).path ∧
      relOf cwd (entryAt entries i).path ≠ [] ∧
      parentStoreKey (relOf cwd (entryAt entries i).path) = k')
    (hwf : ∀ i, i < entries.length → wfPath (entryAt entries i).path) :
    ∀ (fuel : Nat) (q : Path), wfPath q → ∀ (st : List Bool),
      ∀ r ∈ buildRowsFuel entries cwd expanded fA ch fuel
          (path_to_store_key q) st,
        q <+: (relOf cwd (entryAt entries r.idx).path).dropLast := by
  intro fuel
  induction fuel with
  | zero =>
    intro q _ st r hr
    cases hr
  | succ fuel ihf =>
    intro q hq st r hr
    rw [buildRowsFuel] at hr
    have inner : ∀ (sibs : List Nat),
        (∀ i ∈ sibs, i ∈ ch (path_to_store_key q)) →
        ∀ (st' : List Bool),
        ∀ r' ∈ buildRowsGo entries cwd expanded fA
            (fun k' st'' => buildRowsFuel entries cwd expanded fA ch fuel
              k' st'') sibs st',
          q <+: (relOf cwd (entryAt entries r'.idx).path).dropLast := by
      intro sibs
      induction sibs with
      | nil =>
        intro _ _ r' hr'
        cases hr'
      | cons i rest ihs =>
        intro hsub st' r' hr'
        have hich := hsub i (List.mem_cons_self _ _)
        obtain ⟨hilt, hicwd, hirel, hipk⟩ :=
          hch (path_to_store_key q) i hich
        have hwfreli : wfPath (relOf cwd (entryAt entries i).path) :=
          relOf_wf (hwf i hilt)
        have hidl : (relOf cwd (entryAt entries i).path).dropLast = q := by
          unfold parentStoreKey at hipk
          rw [if_neg hirel] at hipk
          exact key_inj (wfPath_dropLast hwfreli) hq hipk
        rw [buildRowsGo] at hr'
        rcases List.mem_cons.mp hr' with hr1 | hr1
        · rw [hr1]
          rw [hidl]
        · rcases List.mem_append.mp hr1 with hr2 | hr2
          · by_cases hc : (entryAt entries i).kind = EntryKind.dir ∧
                (fA ∨ entry_key entries cwd i ∈ expanded)
            · rw [if_pos hc] at hr2
              have hkey : entry_key entries cwd i =
                  path_to_store_key (relOf cwd (entryAt entries i).path) :=
                rfl
              rw [hkey] at hr2
              have hsubcone := ihf (relOf cwd (entryAt entries i).path)
                hwfreli _ r' hr2
              have hq_rel : q <+: relOf cwd (entryAt entries i).path := by
                rw [← hidl]
                exact dropLast_pre _
              exact hq_rel.trans hsubcone
            · rw [if_neg hc] at hr2
              cases hr2
          · exact ihs (fun j hj => hsub j (List.mem_cons_of_mem _ hj)) st'
              r' hr2
    exact inner (ch (path_to_store_key q)) (fun _ h => h) st r hr

theorem buildRowsGo_member (entries : List StoreEntry) (cwd : Path)
    (expanded : Finset String) (fA : Bool) (ch : String → List Nat)
    (hch : ∀ k', ∀ i ∈ ch k', i < entries.length ∧
      cwd <+: (entryAt entries i).path ∧
      relOf cwd (entryAt entries i).path ≠ [] ∧
      parentStoreKey (relOf cwd (entryAt entries i).path) = k')
    (hwf : ∀ i, i < entries.length → wfPath (entryAt entries i).path)
    (fuel : Nat) :
    ∀ (sibs : List Nat) (st : List Bool),
      (∀ i ∈ sibs, i < entries.length) →
      ∀ r ∈ buildRowsGo entries cwd expanded fA
          (fun k' st'' => buildRowsFuel entries cwd expanded fA ch fuel
            k' st'') sibs st,
        ∃ j ∈ sibs, r.idx = j ∨
          ((entryAt entries j).kind = EntryKind.dir ∧
            relOf cwd (entryAt entries j).path <+:
              (relOf cwd (entryAt entries r.idx).path).dropLast) := by
  intro sibs
  induction sibs with
  | nil =>
    intro st _ r hr
    cases hr
  | cons i rest ihs =>
    intro st hin r hr
    rw [buildRowsGo] at hr
    rcases List.mem_cons.mp hr with hr1 | hr1
    · exact ⟨i, List.mem_cons_self _ _, Or.inl (by rw [hr1])⟩
    · rcases List.mem_append.mp hr1 with hr2 | hr2
      · by_cases hc : (entryAt entries i).kind = EntryKind.dir ∧
            (fA ∨ entry_key entries cwd i ∈ expanded)
        · rw [if_pos hc] at hr2
          have hkey : entry_key entries cwd i =
              path_to_store_key (relOf cwd (entryAt entries i).path) := rfl
          rw [hkey] at hr2
          have hwfreli : wfPath (relOf cwd (entryAt entries i).path) :=
            relOf_wf (hwf i (hin i (List.mem_cons_self _ _)))
          have hcone := buildRowsFuel_cone entries cwd expanded fA ch hch
            hwf fuel (relOf cwd (entryAt entries i).path) hwfreli _ r hr2
          exact ⟨i, List.mem_cons_self _ _, Or.inr ⟨hc.1, hcone⟩⟩
        · rw [if_neg hc] at hr2
          cases hr2
      · obtain ⟨j, hj1, hj2⟩ := ihs st
          (fun j hj => hin j (List.mem_cons_of_mem _ hj)) r hr2
        exact ⟨j, List.mem_cons_of_mem _ hj1, hj2⟩

end PassTui

namespace PassTui

theorem vrpk_eq {entries : List StoreEntry} {cwd : Path} {y : ViewRow}
    (h : relOf cwd (entryAt entries y.idx).path ≠ []) :
    viewRowParentKey entries cwd y =
      path_to_store_key ((relOf cwd (entryAt entries y.idx).path).dropLast) := by
  unfold viewRowParentKey parentStoreKey
  rw [if_neg h]

theorem siblingRows_cons (entries : List StoreEntry) (cwd : Path) (k : String)
    (r : ViewRow) (l : List ViewRow) :
    siblingRows entries cwd k (r :: l) =
      if viewRowParentKey entries cwd r = k then
        r :: siblingRows entries cwd k l
      else siblingRows entries cwd k l := by
  by_cases h : viewRowParentKey entries cwd r = k
  · simp [siblingRows, List.filter_cons, h]
  · simp [siblingRows, List.filter_cons, h]

theorem siblingRows_append (entries : List StoreEntry) (cwd : Path)
    (k : String) (l₁ l₂ : List ViewRow) :
    siblingRows entries cwd k (l₁ ++ l₂) =
      siblingRows entries cwd k l₁ ++ siblingRows entries cwd k l₂ := by
  simp [siblingRows, List.filter_append]

theorem mem_siblingRows {entries : List StoreEntry} {cwd : Path} {k : String}
    {y : ViewRow} {l : List ViewRow} :
    y ∈ siblingRows entries cwd k l ↔
      y ∈ l ∧ viewRowParentKey entries cwd y = k := by
  simp [siblingRows, List.mem_filter]

theorem buildRowsFuel_sibling_pairwise (entries : List StoreEntry)
    (cwd : Path) (expanded : Finset String) (fA : Bool)
    (ch : String → List Nat)
    (hch : ∀ k', ∀ i ∈ ch k', i < entries.length ∧
      cwd <+: (entryAt entries i).path ∧
      relOf cwd (entryAt entries i).path ≠ [] ∧
      parentStoreKey (relOf cwd (entryAt entries i).path) = k')
    (hsort : ∀ k', List.Pairwise
      (fun i j => cmp_entries entries i j = Ordering.lt) (ch k'))
    (hwf : ∀ i, i < entries.length → wfPath (entryAt entries i).path) :
    ∀ (fuel : Nat) (q : Path), wfPath q → ∀ (st : List Bool) (k : String),
      List.Pairwise (fun r r' : ViewRow =>
        cmp_entries entries r.idx r'.idx = Ordering.lt)
        (siblingRows entries cwd k
          (buildRowsFuel entries cwd expanded fA ch fuel
            (path_to_store_key q) st)) := by
  intro fuel
  induction fuel with
  | zero =>
    intro q _ st k
    simp [buildRowsFuel, siblingRows]
  | succ fuel ihf =>
    intro q hq st k
    rw [buildRowsFuel]
    have hqlen : ∀ i ∈ ch (path_to_store_key q),
        (relOf cwd (entryAt entries i).path).dropLast = q ∧
        (relOf cwd (entryAt entries i).path).length = q.length + 1 := by
      intro i hi
      obtain ⟨hilt, _, hirel, hipk⟩ := hch _ i hi
      have hwfi : wfPath (relOf cwd (entryAt entries i).path) :=
        relOf_wf (hwf i hilt)
      have hdl : (relOf cwd (entryAt entries i).path).dropLast = q := by
        unfold parentStoreKey at hipk
        rw [if_neg hirel] at hipk
        exact key_inj (wfPath_dropLast hwfi) hq hipk
      refine ⟨hdl, ?_⟩
      have h1 := congrArg List.length hdl
      rw [List.length_dropLast] at h1
      have h2 : (relOf cwd (entryAt entries i).path).length ≠ 0 :=
        fun h => hirel (List.length_eq_zero.mp h)
      omega
    have hsubpk : ∀ m ∈ ch (path_to_store_key q), ∀ y : ViewRow,
        y.idx < entries.length →
        relOf cwd (entryAt entries y.idx).path ≠ [] →
        relOf cwd (entryAt entries m).path <+:
          (relOf cwd (entryAt entries y.idx).path).dropLast →
        viewRowParentKey entries cwd y = path_to_store_key q → False := by
      intro m hm y hylt hyrel hpre hpk
      have hwfy : wfPath (relOf cwd (entryAt entries y.idx).path) :=
        relOf_wf (hwf _ hylt)
      rw [vrpk_eq hyrel] at hpk
      have hdl : (relOf cwd (entryAt entries y.idx).path).dropLast = q :=
        key_inj (wfPath_dropLast hwfy) hq hpk
      obtain ⟨_, hmlen⟩ := hqlen m hm
      have hlen := hpre.length_le
      rw [hdl] at hlen
      omega
    have hsubsub : ∀ m ∈ ch (path_to_store_key q),
        ∀ j ∈ ch (path_to_store_key q),
        (entryAt entries m).kind = EntryKind.dir →
        (entryAt entries j).kind = EntryKind.dir →
        ∀ x y : ViewRow,
        x.idx < entries.length →
        relOf cwd (entryAt entries x.idx).path ≠ [] →
        y.idx < entries.length →
        relOf cwd (entryAt entries y.idx).path ≠ [] →
        relOf cwd (entryAt entries m).path <+:
          (relOf cwd (entryAt entries x.idx).path).dropLast →
        relOf cwd (entryAt entries j).path <+:
          (relOf cwd (entryAt entries y.idx).path).dropLast →
        viewRowParentKey entries cwd x = k →
        viewRowParentKey entries cwd y = k →
        entryAt entries m = entryAt entries j := by
      intro m hm j hj hkm hkj x y hxlt hxrel hylt hyrel hprex hprey hpkx hpky
      have hwfx : wfPath (relOf cwd (entryAt entries x.idx).path) :=
        relOf_wf (hwf _ hxlt)
      have hwfy : wfPath (relOf cwd (entryAt entries y.idx).path) :=
        relOf_wf (hwf _ hylt)
      rw [vrpk_eq hxrel] at hpkx
      rw [vrpk_eq hyrel] at hpky
      have hweq : (relOf cwd (entryAt entries x.idx).path).dropLast =
          (relOf cwd (entryAt entries y.idx).path).dropLast :=
        key_inj (wfPath_dropLast hwfx) (wfPath_dropLast hwfy)
          (hpkx.trans hpky.symm)
      obtain ⟨_, hmlen⟩ := hqlen m hm
      obtain ⟨_, hjlen⟩ := hqlen j hj
      have hprey' : relOf cwd (entryAt entries j).path <+:
          (relOf cwd (entryAt entries x.idx).path).dropLast := by
        rw [hweq]
        exact hprey
      have hreleq : relOf cwd (entryAt entries m).path =
          relOf cwd (entryAt entries j).path := by
        have h1 : relOf cwd (entryAt entries m).path <+:
            relOf cwd (entryAt entries j).path :=
          pre_of_pre_length_le hprex hprey' (by omega)
        exact h1.eq_of_length (by omega)
      have hpatheq : (entryAt entries m).path = (entryAt entries j).path := by
        have h1 := relOf_append (hch _ m hm).2.1
        have h2 := relOf_append (hch _ j hj).2.1
        rw [← h1, ← h2, hreleq]
      calc entryAt entries m
          = ⟨(entryAt entries m).path, (entryAt entries m).kind⟩ := rfl
        _ = ⟨(entryAt entries j).path, (entryAt entries j).kind⟩ := by
            rw [hpatheq, hkm, hkj]
        _ = entryAt entries j := rfl
    have inner : ∀ (sibs : List Nat),
        (∀ i ∈ sibs, i ∈ ch (path_to_store_key q)) →
        List.Pairwise (fun i j => cmp_entries entries i j = Ordering.lt)
          sibs →
        ∀ st' : List Bool,
          List.Pairwise (fun r r' : ViewRow =>
            cmp_entries entries r.idx r'.idx = Ordering.lt)
            (siblingRows entries cwd k
              (buildRowsGo entries cwd expanded fA
                (fun k' st'' => buildRowsFuel entries cwd expanded fA ch
                  fuel k' st'')
                sibs st')) := by
      intro sibs
      induction sibs with
      | nil =>
        intro _ _ st'
        simp [buildRowsGo, siblingRows]
      | cons i rest ihs =>
        intro hsub hpw st'
        have hich := hsub i (List.mem_cons_self _ _)
        obtain ⟨hilt, hicwd, hirel, hipk⟩ := hch _ i hich
        obtain ⟨hidl, hilen⟩ := hqlen i hich
        have hpwhead := (List.pairwise_cons.mp hpw).1
        have hpwrest := (List.pairwise_cons.mp hpw).2
        have hsubrest : ∀ j ∈ rest, j ∈ ch (path_to_store_key q) :=
          fun j hj => hsub j (List.mem_cons_of_mem _ hj)
        have hgoBasic : ∀ y ∈ buildRowsGo entries cwd expanded fA
            (fun k' st'' => buildRowsFuel entries cwd expanded fA ch fuel
              k' st'') rest st',
            y.idx < entries.length ∧
            relOf cwd (entryAt entries y.idx).path ≠ [] := by
          refine buildRowsGo_forall entries cwd expanded fA _
            (fun y => y.idx < entries.length ∧
              relOf cwd (entryAt entries y.idx).path ≠ []) ?_ rest st' ?_
          · intro k'' st'' r' hr'
            have h := buildRowsFuel_basic entries cwd expanded fA ch hch
              fuel k'' st'' r' hr'
            exact ⟨h.1, h.2.2⟩
          · intro j hj _
            obtain ⟨h1, _, h3, _⟩ := hch _ j (hsubrest j hj)
            exact ⟨h1, h3⟩
        have hrestMember := buildRowsGo_member entries cwd expanded fA ch
          hch hwf fuel rest st'
          (fun j hj => (hch _ j (hsubrest j hj)).1)
        have hheadkey : ∀ br : List Bool,
            viewRowParentKey entries cwd ⟨i, br⟩ = k →
            k = path_to_store_key q := by
          intro br h
          rw [vrpk_eq (y := ⟨i, br⟩) hirel] at h
          rw [← h, hidl]
        have hcrossHead : ∀ br : List Bool,
            viewRowParentKey entries cwd ⟨i, br⟩ = k →
            ∀ y ∈ siblingRows entries cwd k
              (buildRowsGo entries cwd expanded fA
                (fun k' st'' => buildRowsFuel entries cwd expanded fA ch
                  fuel k' st'') rest st'),
              cmp_entries entries i y.idx = Ordering.lt := by
          intro br hpk y hy
          obtain ⟨hyin, hypk⟩ := mem_siblingRows.mp hy
          obtain ⟨j, hjrest, hjcase⟩ := hrestMember y hyin
          rcases hjcase with hidx | ⟨hjdir, hjpre⟩
          · rw [hidx]
            exact hpwhead j hjrest
          · exfalso
            obtain ⟨hylt, hyrel⟩ := hgoBasic y hyin
            refine hsubpk j (hsubrest j hjrest) y hylt hyrel hjpre ?_
            rw [hypk]
            exact hheadkey _ hpk
        have hek : entry_key entries cwd i =
            path_to_store_key (relOf cwd (entryAt entries i).path) := rfl
        have hwfreli : wfPath (relOf cwd (entryAt entries i).path) :=
          relOf_wf (hwf i hilt)
        by_cases hcond : (entryAt entries i).kind = EntryKind.dir ∧
            (fA ∨ entry_key entries cwd i ∈ expanded)
        · -- the sibling recursion is taken: rows of i's subtree follow
          have hsubCross : ∀ x ∈ siblingRows entries cwd k
                (buildRowsFuel entries cwd expanded fA ch fuel
                  (entry_key entries cwd i) (st' ++ [rest.isEmpty])),
              ∀ y ∈ siblingRows entries cwd k
                (buildRowsGo entries cwd expanded fA
                  (fun k' st'' => buildRowsFuel entries cwd expanded fA ch
                    fuel k' st'') rest st'),
              cmp_entries entries x.idx y.idx = Ordering.lt := by
            intro x hx y hy
            exfalso
            obtain ⟨hxin, hxpk⟩ := mem_siblingRows.mp hx
            obtain ⟨hyin, hypk⟩ := mem_siblingRows.mp hy
            rw [hek] at hxin
            obtain ⟨hxlt, _, hxrel⟩ := buildRowsFuel_basic entries cwd
              expanded fA ch hch fuel _ _ x hxin
            have hxcone := buildRowsFuel_cone entries cwd expanded fA ch
              hch hwf fuel _ hwfreli _ x hxin
            obtain ⟨hylt, hyrel⟩ := hgoBasic y hyin
            obtain ⟨j, hjrest, hjcase⟩ := hrestMember y hyin
            rcases hjcase with hidx | ⟨hjdir, hjpre⟩
            · -- y is the head row of the later sibling j: then k is the
              -- call key and x's parent would both be q and extend rel i
              have hjch := hsubrest j hjrest
              obtain ⟨hjlt, _, hjrel, hjpk⟩ := hch _ j hjch
              obtain ⟨hjdl, _⟩ := hqlen j hjch
              have hvy : viewRowParentKey entries cwd y =
                  path_to_store_key q := by
                rw [vrpk_eq (y := y) hyrel, hidx, hjdl]
              refine hsubpk i hich x hxlt hxrel hxcone ?_
              rw [hxpk, ← hypk]
              exact hvy
            · have heq := hsubsub i hich j (hsubrest j hjrest) hcond.1 hjdir
                x y hxlt hxrel hylt hyrel hxcone hjpre hxpk hypk
              have hlt := hpwhead j hjrest
              rw [show cmp_entries entries i j =
                  cmpStoreEntries (entryAt entries i) (entryAt entries j)
                from rfl, heq] at hlt
              rw [cmpStore_eq_iff.mpr rfl] at hlt
              cases hlt
          have hsubPair : List.Pairwise (fun r r' : ViewRow =>
              cmp_entries entries r.idx r'.idx = Ordering.lt)
              (siblingRows entries cwd k
                (buildRowsFuel entries cwd expanded fA ch fuel
                  (entry_key entries cwd i) (st' ++ [rest.isEmpty]))) := by
            rw [hek]
            exact ihf _ hwfreli _ k
          have hheadSub : ∀ br : List Bool,
              viewRowParentKey entries cwd ⟨i, br⟩ = k →
              ∀ y ∈ siblingRows entries cwd k
                (buildRowsFuel entries cwd expanded fA ch fuel
                  (entry_key entries cwd i) (st' ++ [rest.isEmpty])),
                cmp_entries entries i y.idx = Ordering.lt := by
            intro br hpk y hy
            exfalso
            obtain ⟨hyin, hypk⟩ := mem_siblingRows.mp hy
            rw [hek] at hyin
            obtain ⟨hylt, _, hyrel⟩ := buildRowsFuel_basic entries cwd
              expanded fA ch hch fuel _ _ y hyin
            have hycone := buildRowsFuel_cone entries cwd expanded fA ch
              hch hwf fuel _ hwfreli _ y hyin
            refine hsubpk i hich y hylt hyrel hycone ?_
            rw [hypk]
            exact hheadkey _ hpk
          simp only [buildRowsGo]
          rw [if_pos hcond, siblingRows_cons, siblingRows_append]
          by_cases hpk : viewRowParentKey entries cwd
              ⟨i, st' ++ [rest.isEmpty]⟩ = k
          · rw [if_pos hpk]
            rw [List.pairwise_cons]
            constructor
            · intro y hy
              rcases List.mem_append.mp hy with hy1 | hy1
              · exact hheadSub _ hpk y hy1
              · exact hcrossHead _ hpk y hy1
            · rw [List.pairwise_append]
              exact ⟨hsubPair, ihs hsubrest hpwrest st', hsubCross⟩
          · rw [if_neg hpk]
            rw [List.pairwise_append]
            exact ⟨hsubPair, ihs hsubrest hpwrest st', hsubCross⟩
        · simp only [buildRowsGo]
          rw [if_neg hcond, List.nil_append, siblingRows_cons]
          by_cases hpk : viewRowParentKey entries cwd
              ⟨i, st' ++ [rest.isEmpty]⟩ = k
          · rw [if_pos hpk]
            rw [List.pairwise_cons]
            exact ⟨fun y hy => hcrossHead _ hpk y hy,
              ihs hsubrest hpwrest st'⟩
          · rw [if_neg hpk]
            exact ihs hsubrest hpwrest st'
    exact inner (ch (path_to_store_key q)) (fun _ h => h)
      (hsort (path_to_store_key q)) st

end PassTui

namespace PassTui

theorem cmpStore_dir_dir {a b : StoreEntry} (ha : a.kind = EntryKind.dir)
    (hb : b.kind = EntryKind.dir) :
    cmpStoreEntries a b = pathCmp a.path b.path := by
  cases a with
  | mk pa ka =>
    cases b with
    | mk pb kb =>
      simp only at ha hb
      subst ha
      subst hb
      rfl

theorem cmpStore_entry_entry {a b : StoreEntry}
    (ha : a.kind = EntryKind.entry) (hb : b.kind = EntryKind.entry) :
    cmpStoreEntries a b = pathCmp a.path b.path := by
  cases a with
  | mk pa ka =>
    cases b with
    | mk pb kb =>
      simp only at ha hb
      subst ha
      subst hb
      rfl

theorem cmpStore_entry_dir {a b : StoreEntry}
    (ha : a.kind = EntryKind.entry) (hb : b.kind = EntryKind.dir) :
    cmpStoreEntries a b = Ordering.gt := by
  cases a with
  | mk pa ka =>
    cases b with
    | mk pb kb =>
      simp only at ha hb
      subst ha
      subst hb
      rfl

theorem pairwise_lt_decompose (entries : List StoreEntry) :
    ∀ l : List ViewRow,
      List.Pairwise (fun r r' =>
        cmp_entries entries r.idx r'.idx = Ordering.lt) l →
      ∃ ds ls, l = ds ++ ls ∧
        (∀ r ∈ ds, (entryAt entries r.idx).kind = EntryKind.dir) ∧
        (∀ r ∈ ls, (entryAt entries r.idx).kind = EntryKind.entry) ∧
        List.Pairwise (fun r r' => pathCmp (entryAt entries r.idx).path
          (entryAt entries r'.idx).path = Ordering.lt) ds ∧
        List.Pairwise (fun r r' => pathCmp (entryAt entries r.idx).path
          (entryAt entries r'.idx).path = Ordering.lt) ls := by
  intro l
  induction l with
  | nil =>
    exact fun _ => ⟨[], [], rfl, by simp, by simp, by simp, by simp⟩
  | cons r t ih =>
    intro hpw
    obtain ⟨hhead, htail⟩ := List.pairwise_cons.mp hpw
    obtain ⟨ds, ls, heq, hd, hl, pd, pl⟩ := ih htail
    rcases hk : (entryAt entries r.idx).kind with _ | _
    · refine ⟨r :: ds, ls, by rw [heq]; rfl, ?_, hl, ?_, pl⟩
      · intro x hx
        rcases List.mem_cons.mp hx with hx1 | hx1
        · rw [hx1]
          exact hk
        · exact hd x hx1
      · rw [List.pairwise_cons]
        refine ⟨?_, pd⟩
        intro y hyds
        have hyt : y ∈ t := by
          rw [heq]
          exact List.mem_append.mpr (Or.inl hyds)
        have hcmp := hhead y hyt
        have hky := hd y hyds
        rwa [show cmp_entries entries r.idx y.idx =
            cmpStoreEntries (entryAt entries r.idx) (entryAt entries y.idx)
          from rfl, cmpStore_dir_dir hk hky] at hcmp
    · have hds : ds = [] := by
        cases hds : ds with
        | nil => rfl
        | cons d ds' =>
          exfalso
          have hdt : d ∈ t := by
            rw [heq, hds]
            exact List.mem_append.mpr (Or.inl (List.mem_cons_self _ _))
          have hcmp := hhead d hdt
          have hkd := hd d (by rw [hds]; exact List.mem_cons_self _ _)
          rw [show cmp_entries entries r.idx d.idx =
              cmpStoreEntries (entryAt entries r.idx) (entryAt entries d.idx)
            from rfl, cmpStore_entry_dir hk hkd] at hcmp
          cases hcmp
      subst hds
      rw [List.nil_append] at heq
      refine ⟨[], r :: ls, by rw [heq]; rfl, by simp, ?_, by simp, ?_⟩
      · intro x hx
        rcases List.mem_cons.mp hx with hx1 | hx1
        · rw [hx1]
          exact hk
        · exact hl x hx1
      · rw [List.pairwise_cons]
        refine ⟨?_, pl⟩
        intro y hyls
        have hyt : y ∈ t := by
          rw [heq]
          exact hyls
        have hcmp := hhead y hyt
        have hky := hl y hyls
        rwa [show cmp_entries entries r.idx y.idx =
            cmpStoreEntries (entryAt entries r.idx) (entryAt entries y.idx)
          from rfl, cmpStore_entry_entry hk hky] at hcmp

theorem entryAt_wf {entries : List StoreEntry}
    (hwf : ∀ e ∈ entries, wfPath e.path) :
    ∀ i, wfPath (entryAt entries i).path := by
  intro i
  by_cases h : i < entries.length
  · have hg : entryAt entries i = entries[i] := List.getD_eq_getElem _ _ h
    rw [hg]
    exact hwf _ (entries.getElem_mem h)
  · have hg : entryAt entries i = ⟨[], EntryKind.dir⟩ := by
      unfold entryAt
      exact List.getD_eq_default _ _ (by omega)
    rw [hg]
    exact fun s hs => absurd hs (List.not_mem_nil s)

/-- C3: in every recomputed row list, each group of sibling rows (rows
whose entry has the same parent key relative to `cwd`) is all directories,
in strictly increasing path order, followed by all leaves, in strictly
increasing path order — whether or not a filter is active. -/
theorem C3_sibling_order (a : App) (hwf : ∀ e ∈ a.entries, wfPath e.path)
    (hnd : a.entries.Nodup) (k : String) :
    ∃ ds ls,
      siblingRows a.entries a.cwd k (App.apply_filter a).rows = ds ++ ls ∧
      (∀ r ∈ ds, (entryAt a.entries r.idx).kind = EntryKind.dir) ∧
      (∀ r ∈ ls, (entryAt a.entries r.idx).kind = EntryKind.entry) ∧
      List.Pairwise (fun r r' => pathCmp (entryAt a.entries r.idx).path
        (entryAt a.entries r'.idx).path = Ordering.lt) ds ∧
      List.Pairwise (fun r r' => pathCmp (entryAt a.entries r.idx).path
        (entryAt a.entries r'.idx).path = Ordering.lt) ls := by
  apply pairwise_lt_decompose
  have hrows : (App.apply_filter a).rows =
      recomputeRows a.entries a.cwd a.filter a.expanded := rfl
  rw [hrows]
  simp only [recomputeRows]
  rw [show ("" : String) = path_to_store_key [] from rfl]
  apply buildRowsFuel_sibling_pairwise
  · intro k' i hi
    have h := mem_childrenOf.mp hi
    have hs := filterScan_spec a.entries a.cwd a.filter i h.2.1
    exact ⟨h.1, hs.2.1, h.2.2.1, h.2.2.2⟩
  · intro k'
    exact childrenOf_pairwise_lt hnd a.cwd _ k'
  · exact fun i _ => entryAt_wf hwf i
  · exact fun s hs => absurd hs (List.not_mem_nil s)

/-- Witness for `C3_sibling_order`: the scenario store, unfiltered, at the
root sibling group. -/
theorem C3_sibling_order_witness :
    ((∀ e ∈ sampleStore, wfPath e.path) ∧ sampleStore.Nodup) ∧
      ∃ ds ls,
        siblingRows sampleStore [] ""
            (App.apply_filter { baseApp with entries := sampleStore }).rows =
          ds ++ ls ∧
        (∀ r ∈ ds, (entryAt sampleStore r.idx).kind = EntryKind.dir) ∧
        (∀ r ∈ ls, (entryAt sampleStore r.idx).kind = EntryKind.entry) ∧
        List.Pairwise (fun r r' => pathCmp (entryAt sampleStore r.idx).path
          (entryAt sampleStore r'.idx).path = Ordering.lt) ds ∧
        List.Pairwise (fun r r' => pathCmp (entryAt sampleStore r.idx).path
          (entryAt sampleStore r'.idx).path = Ordering.lt) ls :=
  ⟨⟨by decide, by decide⟩,
    C3_sibling_order { baseApp with entries := sampleStore } (by decide)
      (by decide) ""⟩

end PassTui

namespace PassTui

/-! ## Claim C8: toggling a directory twice -/

theorem entry_key_uniq (entries : List StoreEntry) (cwd : Path)
    (hwf : ∀ i, i < entries.length → wfPath (entryAt entries i).path)
    (hnd : entries.Nodup) {dIdx j : Nat}
    (hdlt : dIdx < entries.length)
    (hdcwd : cwd <+: (entryAt entries dIdx).path)
    (hdkind : (entryAt entries dIdx).kind = EntryKind.dir)
    (hjlt : j < entries.length)
    (hjcwd : cwd <+: (entryAt entries j).path)
    (hjkind : (entryAt entries j).kind = EntryKind.dir)
    (hk : entry_key entries cwd j = entry_key entries cwd dIdx) : j = dIdx := by
  have hrel : relOf cwd (entryAt entries j).path =
      relOf cwd (entryAt entries dIdx).path :=
    key_inj (relOf_wf (hwf j hjlt)) (relOf_wf (hwf dIdx hdlt)) hk
  have hpath : (entryAt entries j).path = (entryAt entries dIdx).path := by
    rw [← relOf_append hjcwd, ← relOf_append hdcwd, hrel]
  have heq : entryAt entries j = entryAt entries dIdx := by
    calc entryAt entries j
        = ⟨(entryAt entries j).path, (entryAt entries j).kind⟩ := rfl
      _ = ⟨(entryAt entries dIdx).path, (entryAt entries dIdx).kind⟩ := by
          rw [hpath, hjkind, hdkind]
      _ = entryAt entries dIdx := rfl
  have hgj : entryAt entries j = entries[j] := List.getD_eq_getElem _ _ hjlt
  have hgd : entryAt entries dIdx = entries[dIdx] :=
    List.getD_eq_getElem _ _ hdlt
  rw [hgj, hgd] at heq
  exact hnd.getElem_inj_iff.mp heq

theorem buildRowsGo_eqaway (entries : List StoreEntry) (cwd : Path)
    (fA : Bool) (ch : String → List Nat) (E E' : Finset String) (dIdx : Nat)
    (hwf : ∀ i, i < entries.length → wfPath (entryAt entries i).path)
    (hnd : entries.Nodup)
    (hdlt : dIdx < entries.length)
    (hdcwd : cwd <+: (entryAt entries dIdx).path)
    (hdkind : (entryAt entries dIdx).kind = EntryKind.dir)
    (hEE : ∀ s : String, s ≠ entry_key entries cwd dIdx → (s ∈ E ↔ s ∈ E'))
    (fuel : Nat)
    (hrec : ∀ q' : Path, wfPath q' → ∀ st'' : List Bool,
      ¬ (q' <+: (relOf cwd (entryAt entries dIdx).path).dropLast) →
      buildRowsFuel entries cwd E fA ch fuel (path_to_store_key q') st'' =
        buildRowsFuel entries cwd E' fA ch fuel (path_to_store_key q') st'' ∧
      ∀ r ∈ buildRowsFuel entries cwd E fA ch fuel
          (path_to_store_key q') st'', r.idx ≠ dIdx) :
    ∀ (sibs : List Nat) (st' : List Bool),
      (∀ j ∈ sibs, j < entries.length ∧ cwd <+: (entryAt entries j).path) →
      (∀ j ∈ sibs, j ≠ dIdx) →
      (∀ j ∈ sibs, (entryAt entries j).kind = EntryKind.dir →
        ¬ (relOf cwd (entryAt entries j).path <+:
            (relOf cwd (entryAt entries dIdx).path).dropLast)) →
      buildRowsGo entries cwd E fA
          (fun k' st'' => buildRowsFuel entries cwd E fA ch fuel k' st'')
          sibs st' =
        buildRowsGo entries cwd E' fA
          (fun k' st'' => buildRowsFuel entries cwd E' fA ch fuel k' st'')
          sibs st' ∧
      ∀ r ∈ buildRowsGo entries cwd E fA
          (fun k' st'' => buildRowsFuel entries cwd E fA ch fuel k' st'')
          sibs st', r.idx ≠ dIdx := by
  intro sibs
  induction sibs with
  | nil =>
    intro _ _ _ _
    exact ⟨rfl, fun r hr => absurd hr (List.not_mem_nil r)⟩
  | cons j rest ih =>
    intro st' hjs hnin hnopre
    obtain ⟨hresteq, hrestclean⟩ := ih st'
      (fun x hx => hjs x (List.mem_cons_of_mem _ hx))
      (fun x hx => hnin x (List.mem_cons_of_mem _ hx))
      (fun x hx => hnopre x (List.mem_cons_of_mem _ hx))
    have hjd := hnin j (List.mem_cons_self _ _)
    obtain ⟨hjlt, hjcwd⟩ := hjs j (List.mem_cons_self _ _)
    have hcondiff : ((entryAt entries j).kind = EntryKind.dir ∧
        (fA ∨ entry_key entries cwd j ∈ E)) ↔
        ((entryAt entries j).kind = EntryKind.dir ∧
          (fA ∨ entry_key entries cwd j ∈ E')) := by
      by_cases hkj : (entryAt entries j).kind = EntryKind.dir
      · by_cases hkkj : entry_key entries cwd j = entry_key entries cwd dIdx
        · exact absurd (entry_key_uniq entries cwd hwf hnd hdlt hdcwd hdkind
            hjlt hjcwd hkj hkkj) hjd
        · constructor
          · rintro ⟨h1, h2⟩
            refine ⟨h1, ?_⟩
            rcases h2 with h2 | h2
            · exact Or.inl h2
            · exact Or.inr ((hEE _ hkkj).mp h2)
          · rintro ⟨h1, h2⟩
            refine ⟨h1, ?_⟩
            rcases h2 with h2 | h2
            · exact Or.inl h2
            · exact Or.inr ((hEE _ hkkj).mpr h2)
      · constructor
        · rintro ⟨h1, _⟩
          exact absurd h1 hkj
        · rintro ⟨h1, _⟩
          exact absurd h1 hkj
    have hsub : (if (entryAt entries j).kind = EntryKind.dir ∧
          (fA ∨ entry_key entries cwd j ∈ E) then
          buildRowsFuel entries cwd E fA ch fuel (entry_key entries cwd j)
            (st' ++ [rest.isEmpty])
        else []) =
        (if (entryAt entries j).kind = EntryKind.dir ∧
          (fA ∨ entry_key entries cwd j ∈ E') then
          buildRowsFuel entries cwd E' fA ch fuel (entry_key entries cwd j)
            (st' ++ [rest.isEmpty])
        else []) ∧
        ∀ r ∈ (if (entryAt entries j).kind = EntryKind.dir ∧
          (fA ∨ entry_key entries cwd j ∈ E) then
          buildRowsFuel entries cwd E fA ch fuel (entry_key entries cwd j)
            (st' ++ [rest.isEmpty])
        else []), r.idx ≠ dIdx := by
      by_cases hcond : (entryAt entries j).kind = EntryKind.dir ∧
          (fA ∨ entry_key entries cwd j ∈ E)
      · rw [if_pos hcond, if_pos (hcondiff.mp hcond)]
        have hek : entry_key entries cwd j =
            path_to_store_key (relOf cwd (entryAt entries j).path) := rfl
        rw [hek]
        exact hrec (relOf cwd (entryAt entries j).path)
          (relOf_wf (hwf j hjlt)) _ (hnopre j (List.mem_cons_self _ _)
            hcond.1)
      · rw [if_neg hcond, if_neg (fun h => hcond (hcondiff.mpr h))]
        exact ⟨rfl, fun r hr => absurd hr (List.not_mem_nil r)⟩
    constructor
    · rw [buildRowsGo, buildRowsGo, hsub.1, hresteq]
    · intro r hr
      rw [buildRowsGo] at hr
      rcases List.mem_cons.mp hr with hr1 | hr1
      · rw [hr1]
        exact hjd
      · rcases List.mem_append.mp hr1 with hr2 | hr2
        · exact hsub.2 r hr2
        · exact hrestclean r hr2

theorem buildRowsFuel_eqaway (entries : List StoreEntry) (cwd : Path)
    (fA : Bool) (ch : String → List Nat) (E E' : Finset String) (dIdx : Nat)
    (hch : ∀ k', ∀ i ∈ ch k', i < entries.length ∧
      cwd <+: (entryAt entries i).path ∧
      relOf cwd (entryAt entries i).path ≠ [] ∧
      parentStoreKey (relOf cwd (entryAt entries i).path) = k')
    (hwf : ∀ i, i < entries.length → wfPath (entryAt entries i).path)
    (hnd : entries.Nodup)
    (hdlt : dIdx < entries.length)
    (hdcwd : cwd <+: (entryAt entries dIdx).path)
    (hdkind : (entryAt entries dIdx).kind = EntryKind.dir)
    (hEE : ∀ s : String, s ≠ entry_key entries cwd dIdx → (s ∈ E ↔ s ∈ E')) :
    ∀ (fuel : Nat) (q : Path), wfPath q → ∀ st : List Bool,
      ¬ (q <+: (relOf cwd (entryAt entries dIdx).path).dropLast) →
      buildRowsFuel entries cwd E fA ch fuel (path_to_store_key q) st =
        buildRowsFuel entries cwd E' fA ch fuel (path_to_store_key q) st ∧
      ∀ r ∈ buildRowsFuel entries cwd E fA ch fuel
          (path_to_store_key q) st, r.idx ≠ dIdx := by
  intro fuel
  induction fuel with
  | zero =>
    intro q _ st _
    exact ⟨rfl, fun r hr => absurd hr (List.not_mem_nil r)⟩
  | succ fuel ihf =>
    intro q hq st hnqd
    have hqfact : ∀ j ∈ ch (path_to_store_key q),
        (relOf cwd (entryAt entries j).path).dropLast = q := by
      intro j hj
      obtain ⟨hjlt, _, hjrel, hjpk⟩ := hch _ j hj
      unfold parentStoreKey at hjpk
      rw [if_neg hjrel] at hjpk
      exact key_inj (wfPath_dropLast (relOf_wf (hwf j hjlt))) hq hjpk
    rw [buildRowsFuel, buildRowsFuel]
    exact buildRowsGo_eqaway entries cwd fA ch E E' dIdx hwf hnd hdlt hdcwd
      hdkind hEE fuel ihf (ch (path_to_store_key q)) st
      (fun j hj => ⟨(hch _ j hj).1, (hch _ j hj).2.1⟩)
      (by
        intro j hj hjd
        subst hjd
        refine absurd ?_ hnqd
        rw [hqfact j hj])
      (by
        intro j hj _ hpre
        refine absurd ?_ hnqd
        have h1 : q <+: relOf cwd (entryAt entries j).path := by
          have h2 := dropLast_pre (relOf cwd (entryAt entries j).path)
          rw [hqfact j hj] at h2
          exact h2
        exact h1.trans hpre)

end PassTui

namespace PassTui

theorem cond_iff_of_ne (entries : List StoreEntry) (cwd : Path) (fA : Bool)
    (E E' : Finset String) (dIdx : Nat)
    (hwf : ∀ i, i < entries.length → wfPath (entryAt entries i).path)
    (hnd : entries.Nodup)
    (hdlt : dIdx < entries.length)
    (hdcwd : cwd <+: (entryAt entries dIdx).path)
    (hdkind : (entryAt entries dIdx).kind = EntryKind.dir)
    (hEE : ∀ s : String, s ≠ entry_key entries cwd dIdx → (s ∈ E ↔ s ∈ E'))
    {j : Nat} (hjlt : j < entries.length)
    (hjcwd : cwd <+: (entryAt entries j).path) (hjd : j ≠ dIdx) :
    ((entryAt entries j).kind = EntryKind.dir ∧
      (fA ∨ entry_key entries cwd j ∈ E)) ↔
      ((entryAt entries j).kind = EntryKind.dir ∧
        (fA ∨ entry_key entries cwd j ∈ E')) := by
  by_cases hkj : (entryAt entries j).kind = EntryKind.dir
  · by_cases hkkj : entry_key entries cwd j = entry_key entries cwd dIdx
    · exact absurd (entry_key_uniq entries cwd hwf hnd hdlt hdcwd hdkind
        hjlt hjcwd hkj hkkj) hjd
    · constructor
      · rintro ⟨h1, h2⟩
        exact ⟨h1, h2.imp id (hEE _ hkkj).mp⟩
      · rintro ⟨h1, h2⟩
        exact ⟨h1, h2.imp id (hEE _ hkkj).mpr⟩
  · constructor
    · rintro ⟨h1, _⟩
      exact absurd h1 hkj
    · rintro ⟨h1, _⟩
      exact absurd h1 hkj

theorem buildRowsFuel_split (entries : List StoreEntry) (cwd : Path)
    (fA : Bool) (ch : String → List Nat) (E E' : Finset String) (dIdx : Nat)
    (hch : ∀ k', ∀ i ∈ ch k', i < entries.length ∧
      cwd <+: (entryAt entries i).path ∧
      relOf cwd (entryAt entries i).path ≠ [] ∧
      parentStoreKey (relOf cwd (entryAt entries i).path) = k')
    (hsort : ∀ k', List.Pairwise
      (fun i j => cmp_entries entries i j = Ordering.lt) (ch k'))
    (hwf : ∀ i, i < entries.length → wfPath (entryAt entries i).path)
    (hnd : entries.Nodup)
    (hdlt : dIdx < entries.length)
    (hdcwd : cwd <+: (entryAt entries dIdx).path)
    (hdrelne : relOf cwd (entryAt entries dIdx).path ≠ [])
    (hdkind : (entryAt entries dIdx).kind = EntryKind.dir)
    (hEE : ∀ s : String, s ≠ entry_key entries cwd dIdx → (s ∈ E ↔ s ∈ E')) :
    ∀ (fuel : Nat) (q : Path), wfPath q → ∀ st : List Bool,
      (buildRowsFuel entries cwd E fA ch fuel (path_to_store_key q) st =
         buildRowsFuel entries cwd E' fA ch fuel (path_to_store_key q) st ∧
       ∀ r ∈ buildRowsFuel entries cwd E fA ch fuel
           (path_to_store_key q) st, r.idx ≠ dIdx) ∨
      (∃ A stk B B',
        buildRowsFuel entries cwd E fA ch fuel (path_to_store_key q) st =
          A ++ ViewRow.mk dIdx stk :: B ∧
        buildRowsFuel entries cwd E' fA ch fuel (path_to_store_key q) st =
          A ++ ViewRow.mk dIdx stk :: B' ∧
        (∀ r ∈ A, r.idx ≠ dIdx) ∧ (∀ r ∈ B, r.idx ≠ dIdx) ∧
        (∀ r ∈ B', r.idx ≠ dIdx)) := by
  intro fuel
  induction fuel with
  | zero =>
    intro q _ st
    exact Or.inl ⟨rfl, fun r hr => absurd hr (List.not_mem_nil r)⟩
  | succ fuel ihf =>
    intro q hq st
    by_cases hqqd : q <+: (relOf cwd (entryAt entries dIdx).path).dropLast
    · have hqfact : ∀ j ∈ ch (path_to_store_key q),
          (relOf cwd (entryAt entries j).path).dropLast = q := by
        intro j hj
        obtain ⟨hjlt, _, hjrel, hjpk⟩ := hch _ j hj
        unfold parentStoreKey at hjpk
        rw [if_neg hjrel] at hjpk
        exact key_inj (wfPath_dropLast (relOf_wf (hwf j hjlt))) hq hjpk
      have hqlenfact : ∀ j ∈ ch (path_to_store_key q),
          (relOf cwd (entryAt entries j).path).length = q.length + 1 := by
        intro j hj
        obtain ⟨_, _, hjrel, _⟩ := hch _ j hj
        have h1 := congrArg List.length (hqfact j hj)
        rw [List.length_dropLast] at h1
        have h2 : (relOf cwd (entryAt entries j).path).length ≠ 0 :=
          fun h => hjrel (List.length_eq_zero.mp h)
        omega
      rw [buildRowsFuel, buildRowsFuel]
      have inner : ∀ sibs : List Nat,
          (∀ j ∈ sibs, j ∈ ch (path_to_store_key q)) →
          List.Pairwise (fun i j => cmp_entries entries i j = Ordering.lt)
            sibs →
          ∀ st' : List Bool,
          (buildRowsGo entries cwd E fA
              (fun k' st'' => buildRowsFuel entries cwd E fA ch fuel k' st'')
              sibs st' =
            buildRowsGo entries cwd E' fA
              (fun k' st'' => buildRowsFuel entries cwd E' fA ch fuel k' st'')
              sibs st' ∧
           ∀ r ∈ buildRowsGo entries cwd E fA
              (fun k' st'' => buildRowsFuel entries cwd E fA ch fuel k' st'')
              sibs st', r.idx ≠ dIdx) ∨
          (∃ A stk B B',
            buildRowsGo entries cwd E fA
              (fun k' st'' => buildRowsFuel entries cwd E fA ch fuel k' st'')
              sibs st' = A ++ ViewRow.mk dIdx stk :: B ∧
            buildRowsGo entries cwd E' fA
              (fun k' st'' => buildRowsFuel entries cwd E' fA ch fuel k' st'')
              sibs st' = A ++ ViewRow.mk dIdx stk :: B' ∧
            (∀ r ∈ A, r.idx ≠ dIdx) ∧ (∀ r ∈ B, r.idx ≠ dIdx) ∧
            (∀ r ∈ B', r.idx ≠ dIdx)) := by
        intro sibs
        induction sibs with
        | nil =>
          intro _ _ st'
          exact Or.inl ⟨rfl, fun r hr => absurd hr (List.not_mem_nil r)⟩
        | cons j rest ihs =>
          intro hsub hpw st'
          have hjch := hsub j (List.mem_cons_self _ _)
          obtain ⟨hjlt, hjcwd, hjrel, hjpk⟩ := hch _ j hjch
          have hjdl := hqfact j hjch
          have hjlen := hqlenfact j hjch
          have hpwhead := (List.pairwise_cons.mp hpw).1
          have hpwrest := (List.pairwise_cons.mp hpw).2
          have hsubrest : ∀ x ∈ rest, x ∈ ch (path_to_store_key q) :=
            fun x hx => hsub x (List.mem_cons_of_mem _ hx)
          have hwfrelj : wfPath (relOf cwd (entryAt entries j).path) :=
            relOf_wf (hwf j hjlt)
          have hek : entry_key entries cwd j =
              path_to_store_key (relOf cwd (entryAt entries j).path) := rfl
          by_cases hjd : j = dIdx
          · -- the head is the toggled directory itself
            subst hjd
            have hninrest : ∀ x ∈ rest, x ≠ j := by
              intro x hx hxd
              have h := hpwhead x hx
              rw [hxd] at h
              rw [show cmp_entries entries j j =
                  cmpStoreEntries (entryAt entries j) (entryAt entries j)
                from rfl, cmpStore_eq_iff.mpr rfl] at h
              cases h
            have hnoprerest : ∀ x ∈ rest,
                (entryAt entries x).kind = EntryKind.dir →
                ¬ (relOf cwd (entryAt entries x).path <+:
                    (relOf cwd (entryAt entries j).path).dropLast) := by
              intro x hx _ hpre
              have h1 := hpre.length_le
              rw [hjdl] at h1
              have h2 := hqlenfact x (hsubrest x hx)
              omega
            obtain ⟨hResteq, hRestclean⟩ := buildRowsGo_eqaway entries cwd
              fA ch E E' j hwf hnd hjlt hjcwd hdkind hEE fuel
              (fun q' hq' st'' hnq' => buildRowsFuel_eqaway entries cwd fA
                ch E E' j hch hwf hnd hjlt hjcwd hdkind hEE fuel q' hq'
                st'' hnq')
              rest st'
              (fun x hx => ⟨(hch _ x (hsubrest x hx)).1,
                (hch _ x (hsubrest x hx)).2.1⟩)
              hninrest hnoprerest
            have hsubcleanE : ∀ r ∈ (if (entryAt entries j).kind =
                  EntryKind.dir ∧ (fA ∨ entry_key entries cwd j ∈ E) then
                  buildRowsFuel entries cwd E fA ch fuel
                    (entry_key entries cwd j) (st' ++ [rest.isEmpty])
                else []), r.idx ≠ j := by
              intro r hr hrd
              by_cases hcond : (entryAt entries j).kind = EntryKind.dir ∧
                  (fA ∨ entry_key entries cwd j ∈ E)
              · rw [if_pos hcond, hek] at hr
                have hcone := buildRowsFuel_cone entries cwd E fA ch hch
                  hwf fuel _ hwfrelj _ r hr
                rw [hrd] at hcone
                have h1 := hcone.length_le
                rw [List.length_dropLast] at h1
                have h2 : (relOf cwd (entryAt entries j).path).length ≠ 0 :=
                  fun h => hjrel (List.length_eq_zero.mp h)
                omega
              · rw [if_neg hcond] at hr
                cases hr
            have hsubcleanE' : ∀ r ∈ (if (entryAt entries j).kind =
                  EntryKind.dir ∧ (fA ∨ entry_key entries cwd j ∈ E') then
                  buildRowsFuel entries cwd E' fA ch fuel
                    (entry_key entries cwd j) (st' ++ [rest.isEmpty])
                else []), r.idx ≠ j := by
              intro r hr hrd
              by_cases hcond : (entryAt entries j).kind = EntryKind.dir ∧
                  (fA ∨ entry_key entries cwd j ∈ E')
              · rw [if_pos hcond, hek] at hr
                have hcone := buildRowsFuel_cone entries cwd E' fA ch hch
                  hwf fuel _ hwfrelj _ r hr
                rw [hrd] at hcone
                have h1 := hcone.length_le
                rw [List.length_dropLast] at h1
                have h2 : (relOf cwd (entryAt entries j).path).length ≠ 0 :=
                  fun h => hjrel (List.length_eq_zero.mp h)
                omega
              · rw [if_neg hcond] at hr
                cases hr
            right
            refine ⟨[], st' ++ [rest.isEmpty],
              (if (entryAt entries j).kind = EntryKind.dir ∧
                  (fA ∨ entry_key entries cwd j ∈ E) then
                  buildRowsFuel entries cwd E fA ch fuel
                    (entry_key entries cwd j) (st' ++ [rest.isEmpty])
                else []) ++
                buildRowsGo entries cwd E fA
                  (fun k' st'' => buildRowsFuel entries cwd E fA ch fuel
                    k' st'') rest st',
              (if (entryAt entries j).kind = EntryKind.dir ∧
                  (fA ∨ entry_key entries cwd j ∈ E') then
                  buildRowsFuel entries cwd E' fA ch fuel
                    (entry_key entries cwd j) (st' ++ [rest.isEmpty])
                else []) ++
                buildRowsGo entries cwd E' fA
                  (fun k' st'' => buildRowsFuel entries cwd E' fA ch fuel
                    k' st'') rest st',
              ?_, ?_, ?_, ?_, ?_⟩
            · rw [buildRowsGo]
              rfl
            · rw [buildRowsGo]
              rfl
            · exact fun r hr => absurd hr (List.not_mem_nil r)
            · intro r hr
              rcases List.mem_append.mp hr with h | h
              · exact hsubcleanE r h
              · exact hRestclean r h
            · intro r hr
              rcases List.mem_append.mp hr with h | h
              · exact hsubcleanE' r h
              · rw [← hResteq] at h
                exact hRestclean r h
          · -- the head is a different sibling
            have hcondiff := cond_iff_of_ne entries cwd fA E E' dIdx hwf hnd
              hdlt hdcwd hdkind hEE hjlt hjcwd hjd
            by_cases hcond : (entryAt entries j).kind = EntryKind.dir ∧
                (fA ∨ entry_key entries cwd j ∈ E)
            · have hcond' := hcondiff.mp hcond
              have houter := ihf (relOf cwd (entryAt entries j).path)
                hwfrelj (st' ++ [rest.isEmpty])
              rcases houter with ⟨hsubeq, hsubclean⟩ |
                  ⟨As, stks, Bs, Bs', e1, e2, cAs, cBs, cBs'⟩
              · rcases ihs hsubrest hpwrest st' with ⟨he, hc⟩ |
                    ⟨A, stk, B, B', e1, e2, cA, cB, cB'⟩
                · left
                  constructor
                  · rw [buildRowsGo, buildRowsGo, if_pos hcond,
                      if_pos hcond', hek, hsubeq, he]
                  · intro r hr
                    rw [buildRowsGo, if_pos hcond] at hr
                    rcases List.mem_cons.mp hr with h | h
                    · rw [h]
                      exact hjd
                    · rcases List.mem_append.mp h with h | h
                      · rw [hek] at h
                        exact hsubclean r h
                      · exact hc r h
                · right
                  refine ⟨ViewRow.mk j (st' ++ [rest.isEmpty]) ::
                      (buildRowsFuel entries cwd E fA ch fuel
                        (entry_key entries cwd j) (st' ++ [rest.isEmpty]) ++
                        A), stk, B, B', ?_, ?_, ?_, cB, cB'⟩
                  · rw [buildRowsGo, if_pos hcond, e1]
                    simp [List.append_assoc]
                  · rw [buildRowsGo, if_pos hcond', e2]
                    rw [hek, ← hsubeq, ← hek]
                    simp [List.append_assoc]
                  · intro r hr
                    rcases List.mem_cons.mp hr with h | h
                    · rw [h]
                      exact hjd
                    · rcases List.mem_append.mp h with h | h
                      · rw [hek] at h
                        exact hsubclean r h
                      · exact cA r h
              · -- the toggled directory sits inside this sibling's subtree
                have hdmem : ViewRow.mk dIdx stks ∈
                    buildRowsFuel entries cwd E fA ch fuel
                      (path_to_store_key
                        (relOf cwd (entryAt entries j).path))
                      (st' ++ [rest.isEmpty]) := by
                  rw [e1]
                  exact List.mem_append.mpr (Or.inr (List.mem_cons_self _ _))
                have hreljqd : relOf cwd (entryAt entries j).path <+:
                    (relOf cwd (entryAt entries dIdx).path).dropLast := by
                  have hcone := buildRowsFuel_cone entries cwd E fA ch hch
                    hwf fuel _ hwfrelj _ _ hdmem
                  exact hcone
                have hninrest : ∀ x ∈ rest, x ≠ dIdx := by
                  intro x hx hxd
                  have h1 := hqfact x (hsubrest x hx)
                  rw [hxd] at h1
                  have h2 := hreljqd.length_le
                  rw [h1] at h2
                  omega
                have hnoprerest : ∀ x ∈ rest,
                    (entryAt entries x).kind = EntryKind.dir →
                    ¬ (relOf cwd (entryAt entries x).path <+:
                        (relOf cwd (entryAt entries dIdx).path).dropLast) := by
                  intro x hx hxdir hpre
                  have hxlen := hqlenfact x (hsubrest x hx)
                  have hxj : relOf cwd (entryAt entries x).path =
                      relOf cwd (entryAt entries j).path := by
                    have h1 : relOf cwd (entryAt entries x).path <+:
                        relOf cwd (entryAt entries j).path :=
                      pre_of_pre_length_le hpre hreljqd (by omega)
                    exact h1.eq_of_length (by omega)
                  obtain ⟨hxlt, hxcwd, _, _⟩ := hch _ x (hsubrest x hx)
                  have hpatheq : (entryAt entries x).path =
                      (entryAt entries j).path := by
                    rw [← relOf_append hxcwd, ← relOf_append hjcwd, hxj]
                  have hxeq : entryAt entries x = entryAt entries j := by
                    calc entryAt entries x
                        = ⟨(entryAt entries x).path,
                            (entryAt entries x).kind⟩ := rfl
                      _ = ⟨(entryAt entries j).path,
                            (entryAt entries j).kind⟩ := by
                          rw [hpatheq, hxdir, hcond.1]
                      _ = entryAt entries j := rfl
                  have h := hpwhead x hx
                  rw [show cmp_entries entries j x =
                      cmpStoreEntries (entryAt entries j) (entryAt entries x)
                    from rfl, cmpStore_eq_iff.mpr hxeq.symm] at h
                  cases h
                obtain ⟨hResteq, hRestclean⟩ := buildRowsGo_eqaway entries
                  cwd fA ch E E' dIdx hwf hnd hdlt hdcwd hdkind hEE fuel
                  (fun q' hq' st'' hnq' => buildRowsFuel_eqaway entries cwd
                    fA ch E E' dIdx hch hwf hnd hdlt hdcwd hdkind hEE fuel
                    q' hq' st'' hnq')
                  rest st'
                  (fun x hx => ⟨(hch _ x (hsubrest x hx)).1,
                    (hch _ x (hsubrest x hx)).2.1⟩)
                  hninrest hnoprerest
                right
                refine ⟨ViewRow.mk j (st' ++ [rest.isEmpty]) :: As, stks,
                  Bs ++ buildRowsGo entries cwd E fA
                    (fun k' st'' => buildRowsFuel entries cwd E fA ch fuel
                      k' st'') rest st',
                  Bs' ++ buildRowsGo entries cwd E fA
                    (fun k' st'' => buildRowsFuel entries cwd E fA ch fuel
                      k' st'') rest st',
                  ?_, ?_, ?_, ?_, ?_⟩
                · rw [buildRowsGo, if_pos hcond, hek, e1]
                  simp [List.append_assoc]
                · rw [buildRowsGo, if_pos hcond', hek, e2, ← hResteq]
                  simp [List.append_assoc]
                · intro r hr
                  rcases List.mem_cons.mp hr with h | h
                  · rw [h]
                    exact hjd
                  · exact cAs r h
                · intro r hr
                  rcases List.mem_append.mp hr with h | h
                  · exact cBs r h
                  · exact hRestclean r h
                · intro r hr
                  rcases List.mem_append.mp hr with h | h
                  · exact cBs' r h
                  · exact hRestclean r h
            · have hcond' : ¬ ((entryAt entries j).kind = EntryKind.dir ∧
                  (fA ∨ entry_key entries cwd j ∈ E')) :=
                fun h => hcond (hcondiff.mpr h)
              rcases ihs hsubrest hpwrest st' with ⟨he, hc⟩ |
                  ⟨A, stk, B, B', e1, e2, cA, cB, cB'⟩
              · left
                constructor
                · rw [buildRowsGo, buildRowsGo, if_neg hcond, if_neg hcond',
                    he]
                · intro r hr
                  rw [buildRowsGo, if_neg hcond] at hr
                  rcases List.mem_cons.mp hr with h | h
                  · rw [h]
                    exact hjd
                  · rcases List.mem_append.mp h with h | h
                    · cases h
                    · exact hc r h
              · right
                refine ⟨ViewRow.mk j (st' ++ [rest.isEmpty]) :: A, stk, B,
                  B', ?_, ?_, ?_, cB, cB'⟩
                · rw [buildRowsGo, if_neg hcond, e1]
                  rfl
                · rw [buildRowsGo, if_neg hcond', e2]
                  rfl
                · intro r hr
                  rcases List.mem_cons.mp hr with h | h
                  · rw [h]
                    exact hjd
                  · exact cA r h
      exact inner (ch (path_to_store_key q)) (fun _ h => h)
        (hsort (path_to_store_key q)) st
    · exact Or.inl (buildRowsFuel_eqaway entries cwd fA ch E E' dIdx hch hwf
        hnd hdlt hdcwd hdkind hEE (fuel + 1) q hq st hqqd)

end PassTui

namespace PassTui

/-! ## Claim C8: toggling a directory twice -/

theorem flipExpanded_mem_ne (E : Finset String) (k s : String)
    (h : s ≠ k) : s ∈ E ↔ s ∈ flipExpanded E k := by
  unfold flipExpanded
  by_cases hk : k ∈ E
  · rw [if_pos hk, Finset.mem_erase]
    exact ⟨fun hs => ⟨h, hs⟩, fun hs => hs.2⟩
  · rw [if_neg hk, Finset.mem_insert]
    exact ⟨Or.inr, fun hs => hs.resolve_left h⟩

theorem flipExpanded_flip (E : Finset String) (k : String) :
    flipExpanded (flipExpanded E k) k = E := by
  unfold flipExpanded
  by_cases hk : k ∈ E
  · rw [if_pos hk, if_neg (Finset.not_mem_erase k E)]
    exact Finset.insert_erase hk
  · rw [if_neg hk, if_pos (Finset.mem_insert_self k E)]
    exact Finset.erase_insert hk

theorem enter_eq (a : App) (r : ViewRow) (e : StoreEntry)
    (hc : a.rows.get? a.cursor = some r)
    (hget : a.entries.get? r.idx = some e)
    (hdir : e.is_dir = true) :
    a.enter = App.apply_filter
      { a with expanded :=
          flipExpanded a.expanded (entry_key a.entries a.cwd r.idx) } := by
  unfold App.enter
  simp only [hc, hget]
  rw [if_pos hdir]
  rfl

theorem get_clean_unique {A B : List ViewRow} {d : ViewRow} {c : Nat}
    {r : ViewRow} (h : (A ++ d :: B).get? c = some r) (hrd : r.idx = d.idx)
    (cA : ∀ x ∈ A, x.idx ≠ d.idx) (cB : ∀ x ∈ B, x.idx ≠ d.idx) :
    c = A.length ∧ r = d := by
  rcases Nat.lt_trichotomy c A.length with hlt | heq | hgt
  · rw [List.get?_append hlt] at h
    exact absurd hrd (cA r (List.get?_mem h))
  · subst heq
    rw [List.get?_append_right (le_refl _), Nat.sub_self] at h
    simp only [List.get?] at h
    exact ⟨rfl, (Option.some.inj h).symm⟩
  · rw [List.get?_append_right (le_of_lt hgt)] at h
    obtain ⟨m, hm⟩ : ∃ m, c - A.length = m + 1 :=
      ⟨c - A.length - 1, by omega⟩
    rw [hm] at h
    simp only [List.get?] at h
    exact absurd hrd (cB r (List.get?_mem h))

end PassTui

namespace PassTui

/-- C8: when the row under the cursor is a directory row of a coherent view
(the row list is the recompute of the current index, cwd, filter and expand
set), applying `enter` twice in succession — filter, cwd and index unchanged
in between — restores both the expand set and the row list (hence the
visibility of the directory's subtree) to exactly their values before the
first toggle. Hypotheses: the index's paths are non-empty '/'-free segment
lists and the index has no duplicate entries, as `build_store_index`
guarantees. -/
theorem C8_toggle_twice (a : App)
    (hwf : ∀ e ∈ a.entries, wfPath e.path)
    (hnd : a.entries.Nodup)
    (hrows : a.rows = recomputeRows a.entries a.cwd a.filter a.expanded)
    (r₀ : ViewRow)
    (hc : a.rows.get? a.cursor = some r₀)
    (hdir : (entryAt a.entries r₀.idx).kind = EntryKind.dir) :
    (a.enter.enter).expanded = a.expanded ∧ (a.enter.enter).rows = a.rows := by
  have hwf' : ∀ i, i < a.entries.length → wfPath (entryAt a.entries i).path :=
    fun i _ => entryAt_wf hwf i
  have hch : ∀ k', ∀ i ∈ childrenOf a.entries a.cwd
      (filterScan a.entries a.cwd a.filter) k', i < a.entries.length ∧
      a.cwd <+: (entryAt a.entries i).path ∧
      relOf a.cwd (entryAt a.entries i).path ≠ [] ∧
      parentStoreKey (relOf a.cwd (entryAt a.entries i).path) = k' := by
    intro k' i hi
    have h := mem_childrenOf.mp hi
    have hs := filterScan_spec a.entries a.cwd a.filter i h.2.1
    exact ⟨h.1, hs.2.1, h.2.2.1, h.2.2.2⟩
  have hmem : r₀ ∈ buildRowsFuel a.entries a.cwd a.expanded
      (!a.filter.isEmpty)
      (childrenOf a.entries a.cwd (filterScan a.entries a.cwd a.filter))
      (a.entries.length + 1) (path_to_store_key []) [] := by
    have h := List.get?_mem hc
    rw [hrows] at h
    exact h
  obtain ⟨hdlt, hdcwd, hdrelne⟩ := buildRowsFuel_basic a.entries a.cwd
    a.expanded (!a.filter.isEmpty)
    (childrenOf a.entries a.cwd (filterScan a.entries a.cwd a.filter)) hch
    (a.entries.length + 1) (path_to_store_key []) [] r₀ hmem
  have hEE : ∀ s : String, s ≠ entry_key a.entries a.cwd r₀.idx →
      (s ∈ a.expanded ↔ s ∈ flipExpanded a.expanded
        (entry_key a.entries a.cwd r₀.idx)) :=
    fun s hs => flipExpanded_mem_ne a.expanded _ s hs
  have hsplit := buildRowsFuel_split a.entries a.cwd (!a.filter.isEmpty)
    (childrenOf a.entries a.cwd (filterScan a.entries a.cwd a.filter))
    a.expanded (flipExpanded a.expanded (entry_key a.entries a.cwd r₀.idx))
    r₀.idx hch
    (fun k' => childrenOf_pairwise_lt hnd a.cwd _ k')
    hwf' hnd hdlt hdcwd hdrelne hdir hEE
    (a.entries.length + 1) []
    (fun s hs => absurd hs (List.not_mem_nil s)) []
  rcases hsplit with ⟨_, hclean⟩ | ⟨A, stk, B, B', e1, e2, cA, cB, cB'⟩
  · exact absurd rfl (hclean r₀ hmem)
  · have hrowsAB : a.rows = A ++ ViewRow.mk r₀.idx stk :: B := by
      rw [hrows]
      exact e1
    have hR1 : (App.apply_filter { a with expanded := flipExpanded a.expanded (entry_key a.entries a.cwd r₀.idx) }).rows =
        A ++ ViewRow.mk r₀.idx stk :: B' := e2
    obtain ⟨hcur, hr0eq⟩ := @get_clean_unique A B (ViewRow.mk r₀.idx stk)
      a.cursor r₀ (by rw [← hrowsAB]; exact hc) rfl cA cB
    have ha2cur0 : (App.apply_filter { a with expanded := flipExpanded a.expanded (entry_key a.entries a.cwd r₀.idx) }).cursor =
        if (App.apply_filter { a with expanded := flipExpanded a.expanded (entry_key a.entries a.cwd r₀.idx) }).rows.length ≤ a.cursor
        then (App.apply_filter { a with expanded := flipExpanded a.expanded (entry_key a.entries a.cwd r₀.idx) }).rows.length - 1
        else a.cursor := rfl
    have ha2cur : (App.apply_filter { a with expanded := flipExpanded a.expanded (entry_key a.entries a.cwd r₀.idx) }).cursor = A.length := by
      rw [ha2cur0, hR1, if_neg ?_]
      · exact hcur
      · rw [hcur]
        simp only [List.length_append, List.length_cons]
        omega
    have hc₂ : (App.apply_filter { a with expanded := flipExpanded a.expanded (entry_key a.entries a.cwd r₀.idx) }).rows.get?
        (App.apply_filter { a with expanded := flipExpanded a.expanded (entry_key a.entries a.cwd r₀.idx) }).cursor =
        some (ViewRow.mk r₀.idx stk) := by
      rw [hR1, ha2cur, List.get?_append_right (le_refl _), Nat.sub_self]
      rfl
    have hgetE : a.entries.get? r₀.idx = some (entryAt a.entries r₀.idx) := by
      rw [List.get?_eq_getElem?, List.getElem?_eq_getElem hdlt]
      rw [show entryAt a.entries r₀.idx = a.entries[r₀.idx] from
        List.getD_eq_getElem _ _ hdlt]
    have hdirb : (entryAt a.entries r₀.idx).is_dir = true :=
      decide_eq_true hdir
    have henter1 : a.enter = App.apply_filter { a with expanded := flipExpanded a.expanded (entry_key a.entries a.cwd r₀.idx) } :=
      enter_eq a r₀ (entryAt a.entries r₀.idx) hc hgetE hdirb
    have henter2 : (App.apply_filter { a with expanded := flipExpanded a.expanded (entry_key a.entries a.cwd r₀.idx) }).enter =
        App.apply_filter { (App.apply_filter { a with expanded := flipExpanded a.expanded (entry_key a.entries a.cwd r₀.idx) }) with expanded := flipExpanded (flipExpanded a.expanded (entry_key a.entries a.cwd r₀.idx)) (entry_key a.entries a.cwd r₀.idx) } :=
      enter_eq _ (ViewRow.mk r₀.idx stk) (entryAt a.entries r₀.idx) hc₂
        hgetE hdirb
    constructor
    · rw [henter1, henter2]
      show flipExpanded
          (flipExpanded a.expanded (entry_key a.entries a.cwd r₀.idx))
          (entry_key a.entries a.cwd r₀.idx) = a.expanded
      exact flipExpanded_flip a.expanded _
    · rw [henter1, henter2]
      show recomputeRows a.entries a.cwd a.filter
          (flipExpanded
            (flipExpanded a.expanded (entry_key a.entries a.cwd r₀.idx))
            (entry_key a.entries a.cwd r₀.idx)) = a.rows
      rw [flipExpanded_flip]
      exact hrows.symm

end PassTui

namespace PassTui

/-- Witness for `C8_toggle_twice`: the scenario store viewed unfiltered at
the root with the cursor on the directory row `a`; toggling `enter` twice
restores the expand set and the row list. -/
theorem C8_toggle_twice_witness :
    ((∀ e ∈ sampleStore, wfPath e.path) ∧ sampleStore.Nodup ∧
      ({ baseApp with entries := sampleStore, rows := recomputeRows sampleStore [] "" {""} } : App).rows.get?
        ({ baseApp with entries := sampleStore, rows := recomputeRows sampleStore [] "" {""} } : App).cursor =
        some (ViewRow.mk 1 [false]) ∧
      (entryAt sampleStore 1).kind = EntryKind.dir) ∧
    (({ baseApp with entries := sampleStore, rows := recomputeRows sampleStore [] "" {""} } : App).enter.enter).expanded =
      ({ baseApp with entries := sampleStore, rows := recomputeRows sampleStore [] "" {""} } : App).expanded ∧
    (({ baseApp with entries := sampleStore, rows := recomputeRows sampleStore [] "" {""} } : App).enter.enter).rows =
      ({ baseApp with entries := sampleStore, rows := recomputeRows sampleStore [] "" {""} } : App).rows :=
  ⟨⟨by decide, by decide, by decide, by decide⟩,
    C8_toggle_twice { baseApp with entries := sampleStore, rows := recomputeRows sampleStore [] "" {""} }
      (by decide) (by decide) rfl (ViewRow.mk 1 [false]) (by decide)
      (by decide)⟩

end PassTui
